import Mathlib

/-!
A verification development for the Flash C++ documentation generator.

We shallowly embed the tree-building, merging, URL-resolution, autolinking
and render-orchestration core (src/builder/namespace.rs, src/builder/traits.rs,
src/builder/shared.rs).  `HashMap<String, CppItem>` is modelled as an
association list with unique keys; entities (`clang::Entity`) are modelled by
the capability record the code reads (kind, name, usr, children, ...).
-/

namespace Flash

/-- Raw clang entity kinds, restricted to the tags the source inspects
(`EntityKind` in `clang`); `otherKind` stands for every tag the code treats
with a catch-all `_` arm. -/
inductive RawKind where
  | structDecl
  | classDecl
  | classTemplate
  | classTemplatePartialSpecialization
  | functionDecl
  | functionTemplate
  | namespaceDecl
  | baseSpecifier
  | fieldDecl
  | methodDecl
  | enumDecl
  | translationUnit
  | otherKind
deriving DecidableEq, Repr

/-- Accessibility of a declaration (`clang::Accessibility`). -/
inductive AccessM where
  | publicAcc
  | protectedAcc
  | privateAcc
deriving DecidableEq, Repr

/-- The non-recursive attributes of a clang entity that the traced core reads.
`typeDeclUsr` models the composite `get_type().and_then(get_declaration()).map(get_usr)`
used on base specifiers; `full_name` models the `full_name()` capability
(computed in the source from semantic-parent links, which point outside any
subtree and are therefore carried as a node attribute here). -/
structure EData where
  kind : RawKind
  name : Option String
  usr : String
  isDefinition : Bool
  isInSystemHeader : Bool
  defFile : Option (List String)
  locationPath : Option String
  accessibility : Option AccessM
  isVirtualBase : Bool
  typeDeclUsr : Option String
  fullName : List String
deriving DecidableEq, Repr

/-- A clang entity: attributes plus ordered children. -/
inductive EntityM where
  | mk (data : EData) (children : List EntityM)

def EntityM.data : EntityM → EData
  | .mk d _ => d

def EntityM.get_children : EntityM → List EntityM
  | .mk _ cs => cs

def EntityM.get_kind (e : EntityM) : RawKind := e.data.kind

def EntityM.get_name (e : EntityM) : Option String := e.data.name

def EntityM.get_usr (e : EntityM) : String := e.data.usr

def EntityM.is_definition (e : EntityM) : Bool := e.data.isDefinition

def EntityM.is_in_system_header (e : EntityM) : Bool := e.data.isInSystemHeader

def EntityM.get_accessibility (e : EntityM) : Option AccessM := e.data.accessibility

def EntityM.is_virtual_base (e : EntityM) : Bool := e.data.isVirtualBase

def EntityM.full_name (e : EntityM) : List String := e.data.fullName

/-- Model of `CppItemKind` (src/builder/namespace.rs lines 16-21). -/
inductive CppItemKind where
  | namespaceKind
  | classKind
  | structKind
  | functionKind
deriving DecidableEq, Repr

/-- Model of `CppItemKind::from` (src/builder/namespace.rs lines 24-34): classify a raw
entity kind, or decline. -/
def CppItemKind.fromKind : RawKind → Option CppItemKind
  | .structDecl => some .structKind
  | .classDecl
  | .classTemplate
  | .classTemplatePartialSpecialization => some .classKind
  | .functionDecl
  | .functionTemplate => some .functionKind
  | .namespaceDecl => some .namespaceKind
  | _ => none

/-- Model of `CppItemKind::docs_category` (src/builder/namespace.rs lines 36-44):
the leading URL segment for each kind; class and struct share one segment. -/
def CppItemKind.docs_category : CppItemKind → String
  | .namespaceKind => "namespaces"
  | .classKind => "classes"
  | .structKind => "classes"
  | .functionKind => "functions"

/-- Model of `CppItem` (src/builder/namespace.rs lines 46-51 and 145-149): one node of
the documentation model.  A `Namespace` holds its entity, a root flag and its
entry map; `HashMap<String, CppItem>` is modelled as an association list whose
keys are unique. -/
inductive CppItem where
  | namespaceItem (entity : EntityM) (isRoot : Bool) (entries : List (String × CppItem))
  | classItem (entity : EntityM)
  | structItem (entity : EntityM)
  | functionItem (entity : EntityM)

/-- Entry maps of a namespace. -/
abbrev Entries := List (String × CppItem)

/-- Model of `HashMap::get`: first binding of a key (keys are unique in a hash map). -/
def lookupEntry : Entries → String → Option CppItem
  | [], _ => none
  | (k, v) :: rest, key => if k = key then some v else lookupEntry rest key

/-- Model of `HashMap::insert`: replace the binding of the key if present, else add it. -/
def insertEntry : Entries → String → CppItem → Entries
  | [], k, v => [(k, v)]
  | (k0, v0) :: rest, k, v =>
    if k0 = k then (k0, v) :: rest else (k0, v0) :: insertEntry rest k v

/-- The entity carried by an item. -/
def CppItem.entity : CppItem → EntityM
  | .namespaceItem e _ _ => e
  | .classItem e => e
  | .structItem e => e
  | .functionItem e => e

/-- Model of `Entry::name` of an item.  For `Namespace` this is
src/builder/namespace.rs lines 332-336; for the other variants the `name`
field of the `Item` variant is the node's simple name (their impls live in
class.rs / struct_.rs / function.rs, outside src/; modelled from the spec's
`Class(name, node)` data model, §3). -/
def CppItem.itemName : CppItem → String
  | .namespaceItem e _ _ => e.get_name.getD "<Anonymous namespace>"
  | .classItem e => e.get_name.getD "_anon"
  | .structItem e => e.get_name.getD "_anon"
  | .functionItem e => e.get_name.getD "_anon"

/-- Model of `ASTEntry::category` of an item.  `"namespace"` is
src/builder/namespace.rs lines 354-356; the category strings of the class,
struct and function impls live outside src/ and are modelled from the spec
(glossary: a classlike is a class or struct item, and
`get_all_classes` in src matches the strings "class" and "struct"). -/
def CppItem.category : CppItem → String
  | .namespaceItem _ _ _ => "namespace"
  | .classItem _ => "class"
  | .structItem _ => "struct"
  | .functionItem _ => "function"

mutual

/-- Well-formedness of a builder-produced item: nested namespaces carry
well-formed entry maps. -/
def wfItem : CppItem → Bool
  | .namespaceItem _ _ es => wfEntries es
  | _ => true

/-- Well-formedness of a builder-produced entry map: keys are unique, every
item has a simple name and is stored under it, and nested namespaces are
well-formed in turn (the invariants the builder maintains by skipping unnamed
children and always inserting at `entry.name()` into a `HashMap`). -/
def wfEntries : Entries → Bool
  | [] => true
  | (k, v) :: rest =>
    v.entity.get_name.isSome
      && (v.itemName = k : Bool)
      && (k ∉ rest.map Prod.fst : Bool)
      && wfItem v
      && wfEntries rest

end

mutual

/-- One iteration of the `for (name, other_entry) in other.entries` loop of
`Namespace::merge_with_namespace` (src/builder/namespace.rs lines 175-186):
when the entry and the same-keyed entry of `self` are both namespaces, merge
them recursively (this re-enters `merge_with_namespace`, whose `assert_eq!`
on the two entity names is the `e1.get_name = e2.get_name` test here, `none`
standing for the panic); otherwise `other`'s entry replaces `self`'s. -/
def mergeStep (selfEs : Entries) (k : String) (v : CppItem) : Option Entries :=
  match v, lookupEntry selfEs k with
  | .namespaceItem e2 _ es2, some (.namespaceItem e1 r1 es1) =>
    if (e1.get_name = e2.get_name : Bool) then
      (mergeEntriesC es1 es2).map fun es' =>
        insertEntry selfEs k (.namespaceItem e1 r1 es')
    else none
  | v', _ => some (insertEntry selfEs k v')
termination_by sizeOf v
decreasing_by all_goals simp_wf

/-- The full entry loop of `Namespace::merge_with_namespace`
(src/builder/namespace.rs lines 175-186), folding `other`'s entries into
`self`'s. -/
def mergeEntriesC : Entries → Entries → Option Entries
  | selfEs, [] => some selfEs
  | selfEs, (k, v) :: rest =>
    match mergeStep selfEs k v with
    | some selfEs' => mergeEntriesC selfEs' rest
    | none => none
termination_by _ otherEs => sizeOf otherEs
decreasing_by all_goals simp_wf <;> omega

end

/-- Model of `Namespace::merge_with_namespace` (src/builder/namespace.rs lines 173-187):
asserts the two namespaces carry the same entity name (a failed assertion is a
panic, modelled as `none`), then folds `other`'s entries into `self`'s. -/
def merge_with_namespace : CppItem → CppItem → Option CppItem
  | .namespaceItem e1 r1 es1, .namespaceItem e2 _ es2 =>
    if (e1.get_name = e2.get_name : Bool) then
      (mergeEntriesC es1 es2).map (.namespaceItem e1 r1)
    else none
  | _, _ => none

/-- The per-key description of a namespace merge that the spec gives: for
every key, if both sides hold namespaces there, the recursive merge of the
two (keeping `self`'s entity and root flag); otherwise `other`'s entry if it
has one, else `self`'s. -/
def mergeSpecLookup (selfEs otherEs : Entries) (key : String) : Option CppItem :=
  match lookupEntry otherEs key, lookupEntry selfEs key with
  | some (.namespaceItem _ _ es2), some (.namespaceItem e1 r1 es1) =>
    (mergeEntriesC es1 es2).map (CppItem.namespaceItem e1 r1)
  | some v, _ => some v
  | none, r => r

theorem lookupEntry_insertEntry (es : Entries) (k : String) (v : CppItem)
    (key : String) :
    lookupEntry (insertEntry es k v) key
      = if k = key then some v else lookupEntry es key := by
  induction es with
  | nil => simp [insertEntry, lookupEntry]
  | cons p rest ih =>
    obtain ⟨k0, v0⟩ := p
    by_cases h0 : k0 = k
    · subst h0
      by_cases h1 : k0 = key <;> simp [insertEntry, lookupEntry, h1]
    · by_cases h1 : k0 = key
      · subst h1
        have hkk : ¬(k = k0) := fun h => h0 h.symm
        simp [insertEntry, h0, lookupEntry, hkk]
      · simp [insertEntry, h0, lookupEntry, h1, ih]

theorem mem_keys_insertEntry (es : Entries) (k : String) (v : CppItem)
    (a : String) :
    a ∈ (insertEntry es k v).map Prod.fst ↔ a ∈ es.map Prod.fst ∨ a = k := by
  induction es with
  | nil => simp [insertEntry]
  | cons p rest ih =>
    obtain ⟨k0, v0⟩ := p
    by_cases h0 : k0 = k
    · subst h0; simp [insertEntry]; tauto
    · simp [insertEntry, h0, ih]; tauto

theorem lookupEntry_eq_none_iff (es : Entries) (key : String) :
    lookupEntry es key = none ↔ key ∉ es.map Prod.fst := by
  induction es with
  | nil => simp [lookupEntry]
  | cons p rest ih =>
    obtain ⟨k0, v0⟩ := p
    by_cases h0 : k0 = key
    · simp [lookupEntry, h0]
    · simp [lookupEntry, h0, ih]
      exact fun _ he => h0 he.symm

theorem mem_of_lookupEntry (es : Entries) (key : String) (v : CppItem)
    (h : lookupEntry es key = some v) : (key, v) ∈ es := by
  induction es with
  | nil => simp [lookupEntry] at h
  | cons p rest ih =>
    obtain ⟨k0, v0⟩ := p
    by_cases h0 : k0 = key
    · subst h0
      simp [lookupEntry] at h
      simp [h]
    · simp [lookupEntry, h0] at h
      exact List.mem_cons_of_mem _ (ih h)

theorem wfEntries_cons_iff (k : String) (v : CppItem) (rest : Entries) :
    wfEntries ((k, v) :: rest) = true ↔
      v.entity.get_name.isSome = true ∧ v.itemName = k
        ∧ k ∉ rest.map Prod.fst ∧ wfItem v = true ∧ wfEntries rest = true := by
  simp [wfEntries, Bool.and_eq_true, decide_eq_true_eq]
  tauto

theorem wf_of_mem (es : Entries) (k : String) (v : CppItem)
    (h : wfEntries es = true) (hm : (k, v) ∈ es) :
    v.entity.get_name.isSome = true ∧ v.itemName = k ∧ wfItem v = true := by
  induction es with
  | nil => simp at hm
  | cons p rest ih =>
    obtain ⟨k0, v0⟩ := p
    rw [wfEntries_cons_iff] at h
    rcases List.mem_cons.mp hm with h1 | h1
    · obtain ⟨hk, hv⟩ := Prod.mk.injEq .. ▸ h1
      subst hk; subst hv
      exact ⟨h.1, h.2.1, h.2.2.2.1⟩
    · exact ih h.2.2.2.2 h1

theorem wfEntries_insertEntry (es : Entries) (k : String) (v : CppItem)
    (h : wfEntries es = true) (h1 : v.entity.get_name.isSome = true)
    (h2 : v.itemName = k) (h3 : wfItem v = true) :
    wfEntries (insertEntry es k v) = true := by
  induction es with
  | nil =>
    simp [insertEntry, wfEntries_cons_iff, h1, h2, h3, wfEntries]
  | cons p rest ih =>
    obtain ⟨k0, v0⟩ := p
    rw [wfEntries_cons_iff] at h
    by_cases h0 : k0 = k
    · subst h0
      have hins : insertEntry ((k0, v0) :: rest) k0 v = (k0, v) :: rest := by
        simp [insertEntry]
      rw [hins, wfEntries_cons_iff]
      exact ⟨h1, h2, h.2.2.1, h3, h.2.2.2.2⟩
    · have hins : insertEntry ((k0, v0) :: rest) k v
          = (k0, v0) :: insertEntry rest k v := by
        simp [insertEntry, h0]
      rw [hins, wfEntries_cons_iff]
      refine ⟨h.1, h.2.1, ?_, h.2.2.2.1, ih h.2.2.2.2⟩
      rw [mem_keys_insertEntry]
      rintro (hc | hc)
      · exact h.2.2.1 hc
      · exact h0 hc

theorem mergeSpecLookup_congr (s1 s2 o1 o2 : Entries) (key : String)
    (h1 : lookupEntry s1 key = lookupEntry s2 key)
    (h2 : lookupEntry o1 key = lookupEntry o2 key) :
    mergeSpecLookup s1 o1 key = mergeSpecLookup s2 o2 key := by
  unfold mergeSpecLookup
  rw [h1, h2]

theorem merge_spec_all : ∀ n : Nat,
    (∀ (selfEs : Entries) (k : String) (v : CppItem), sizeOf v ≤ n →
      wfEntries selfEs = true → v.entity.get_name.isSome = true →
      v.itemName = k → wfItem v = true →
      ∃ selfEs', mergeStep selfEs k v = some selfEs'
        ∧ wfEntries selfEs' = true
        ∧ lookupEntry selfEs' k = mergeSpecLookup selfEs [(k, v)] k
        ∧ ∀ key, key ≠ k → lookupEntry selfEs' key = lookupEntry selfEs key)
    ∧ (∀ (selfEs otherEs : Entries), sizeOf otherEs ≤ n →
      wfEntries selfEs = true → wfEntries otherEs = true →
      ∃ res, mergeEntriesC selfEs otherEs = some res
        ∧ wfEntries res = true
        ∧ ∀ key, lookupEntry res key = mergeSpecLookup selfEs otherEs key) := by
  intro n
  induction n using Nat.strong_induction_on with
  | _ n ih =>
    constructor
    · intro selfEs k v hsz hs h1 h2 h3
      cases v with
      | namespaceItem e2 r2 es2 =>
        simp only [CppItem.entity] at h1
        obtain ⟨nm2, hnm2⟩ := Option.isSome_iff_exists.mp h1
        simp only [CppItem.itemName, hnm2, Option.getD_some] at h2
        rw [h2] at hnm2
        have hwf2 : wfEntries es2 = true := h3
        have hszes2 : sizeOf es2 < n := by
          have : sizeOf es2 < sizeOf (CppItem.namespaceItem e2 r2 es2) := by
            simp only [CppItem.namespaceItem.sizeOf_spec]; omega
          omega
        cases hsl : lookupEntry selfEs k with
        | none =>
          refine ⟨insertEntry selfEs k (.namespaceItem e2 r2 es2), ?_, ?_, ?_, ?_⟩
          · simp [mergeStep, hsl]
          · exact wfEntries_insertEntry selfEs k _ hs h1
              (by simp [CppItem.itemName, hnm2]) h3
          · rw [lookupEntry_insertEntry, if_pos rfl]
            unfold mergeSpecLookup
            rw [hsl]
            simp [lookupEntry]
          · intro key hkey
            rw [lookupEntry_insertEntry, if_neg (Ne.symm hkey)]
        | some w =>
          cases w with
          | namespaceItem e1 r1 es1 =>
            have hmem := mem_of_lookupEntry selfEs k _ hsl
            obtain ⟨hw1, hw2, hw3⟩ := wf_of_mem selfEs k _ hs hmem
            simp only [CppItem.entity] at hw1
            obtain ⟨nm1, hnm1⟩ := Option.isSome_iff_exists.mp hw1
            simp only [CppItem.itemName, hnm1, Option.getD_some] at hw2
            rw [hw2] at hnm1
            have hwf1 : wfEntries es1 = true := hw3
            obtain ⟨res1, heq1, hwfr1, _⟩ :=
              (ih (sizeOf es2) hszes2).2 es1 es2 le_rfl hwf1 hwf2
            have hnameq : (e1.get_name = e2.get_name : Bool) = true := by
              rw [hnm1, hnm2]; simp
            refine ⟨insertEntry selfEs k (.namespaceItem e1 r1 res1), ?_, ?_, ?_, ?_⟩
            · rw [mergeStep.eq_def, hsl]
              simp [hnameq, heq1]
            · exact wfEntries_insertEntry selfEs k _ hs
                (by simp [CppItem.entity, hnm1])
                (by simp [CppItem.itemName, hnm1]) hwfr1
            · rw [lookupEntry_insertEntry, if_pos rfl]
              unfold mergeSpecLookup
              rw [hsl]
              simp [lookupEntry, heq1]
            · intro key hkey
              rw [lookupEntry_insertEntry, if_neg (Ne.symm hkey)]
          | classItem e1 =>
            refine ⟨insertEntry selfEs k (.namespaceItem e2 r2 es2), ?_, ?_, ?_, ?_⟩
            · simp [mergeStep, hsl]
            · exact wfEntries_insertEntry selfEs k _ hs h1
                (by simp [CppItem.itemName, hnm2]) h3
            · rw [lookupEntry_insertEntry, if_pos rfl]
              unfold mergeSpecLookup
              rw [hsl]
              simp [lookupEntry]
            · intro key hkey
              rw [lookupEntry_insertEntry, if_neg (Ne.symm hkey)]
          | structItem e1 =>
            refine ⟨insertEntry selfEs k (.namespaceItem e2 r2 es2), ?_, ?_, ?_, ?_⟩
            · simp [mergeStep, hsl]
            · exact wfEntries_insertEntry selfEs k _ hs h1
                (by simp [CppItem.itemName, hnm2]) h3
            · rw [lookupEntry_insertEntry, if_pos rfl]
              unfold mergeSpecLookup
              rw [hsl]
              simp [lookupEntry]
            · intro key hkey
              rw [lookupEntry_insertEntry, if_neg (Ne.symm hkey)]
          | functionItem e1 =>
            refine ⟨insertEntry selfEs k (.namespaceItem e2 r2 es2), ?_, ?_, ?_, ?_⟩
            · simp [mergeStep, hsl]
            · exact wfEntries_insertEntry selfEs k _ hs h1
                (by simp [CppItem.itemName, hnm2]) h3
            · rw [lookupEntry_insertEntry, if_pos rfl]
              unfold mergeSpecLookup
              rw [hsl]
              simp [lookupEntry]
            · intro key hkey
              rw [lookupEntry_insertEntry, if_neg (Ne.symm hkey)]
      | classItem e2 =>
        refine ⟨insertEntry selfEs k (.classItem e2), ?_, ?_, ?_, ?_⟩
        · simp [mergeStep]
        · exact wfEntries_insertEntry selfEs k _ hs h1 h2 h3
        · rw [lookupEntry_insertEntry, if_pos rfl]
          unfold mergeSpecLookup
          simp [lookupEntry]
        · intro key hkey
          rw [lookupEntry_insertEntry, if_neg (Ne.symm hkey)]
      | structItem e2 =>
        refine ⟨insertEntry selfEs k (.structItem e2), ?_, ?_, ?_, ?_⟩
        · simp [mergeStep]
        · exact wfEntries_insertEntry selfEs k _ hs h1 h2 h3
        · rw [lookupEntry_insertEntry, if_pos rfl]
          unfold mergeSpecLookup
          simp [lookupEntry]
        · intro key hkey
          rw [lookupEntry_insertEntry, if_neg (Ne.symm hkey)]
      | functionItem e2 =>
        refine ⟨insertEntry selfEs k (.functionItem e2), ?_, ?_, ?_, ?_⟩
        · simp [mergeStep]
        · exact wfEntries_insertEntry selfEs k _ hs h1 h2 h3
        · rw [lookupEntry_insertEntry, if_pos rfl]
          unfold mergeSpecLookup
          simp [lookupEntry]
        · intro key hkey
          rw [lookupEntry_insertEntry, if_neg (Ne.symm hkey)]
    · intro selfEs otherEs hsz hs ho
      cases otherEs with
      | nil =>
        refine ⟨selfEs, by simp [mergeEntriesC], hs, ?_⟩
        intro key
        unfold mergeSpecLookup
        simp [lookupEntry]
      | cons p rest =>
        obtain ⟨k, v⟩ := p
        rw [wfEntries_cons_iff] at ho
        have hszv : sizeOf v < n := by
          have : sizeOf v < sizeOf ((k, v) :: rest) := by
            simp only [List.cons.sizeOf_spec, Prod.mk.sizeOf_spec]; omega
          omega
        have hszr : sizeOf rest < n := by
          have : sizeOf rest < sizeOf ((k, v) :: rest) := by
            simp only [List.cons.sizeOf_spec, Prod.mk.sizeOf_spec]; omega
          omega
        obtain ⟨selfEs', heqS, hwfS, hlookS, hlookO⟩ :=
          (ih (sizeOf v) hszv).1 selfEs k v le_rfl hs ho.1 ho.2.1 ho.2.2.2.1
        obtain ⟨res, heqR, hwfR, hformR⟩ :=
          (ih (sizeOf rest) hszr).2 selfEs' rest le_rfl hwfS ho.2.2.2.2
        refine ⟨res, ?_, hwfR, ?_⟩
        · simp [mergeEntriesC, heqS, heqR]
        · intro key
          by_cases hk : key = k
          · subst hk
            have hrest : lookupEntry rest key = none :=
              (lookupEntry_eq_none_iff rest key).mpr ho.2.2.1
            have heval : mergeSpecLookup selfEs' rest key = lookupEntry selfEs' key := by
              unfold mergeSpecLookup
              rw [hrest]
            rw [hformR key, heval, hlookS]
            refine mergeSpecLookup_congr _ _ _ _ _ rfl ?_
            simp [lookupEntry]
          · rw [hformR key]
            have hc1 : mergeSpecLookup selfEs' rest key = mergeSpecLookup selfEs rest key :=
              mergeSpecLookup_congr _ _ _ _ _ (hlookO key hk) rfl
            rw [hc1]
            have hc2 : lookupEntry ((k, v) :: rest) key = lookupEntry rest key := by
              simp only [lookupEntry, if_neg (Ne.symm hk)]
            exact mergeSpecLookup_congr _ _ _ _ _ rfl hc2.symm

theorem mergeEntriesC_spec (selfEs otherEs : Entries)
    (hs : wfEntries selfEs = true) (ho : wfEntries otherEs = true) :
    ∃ res, mergeEntriesC selfEs otherEs = some res
      ∧ wfEntries res = true
      ∧ ∀ key, lookupEntry res key = mergeSpecLookup selfEs otherEs key :=
  (merge_spec_all (sizeOf otherEs)).2 selfEs otherEs le_rfl hs ho

/-- A small concrete entity used by witnesses: a named node with no children. -/
def wEnt (kd : RawKind) (nm : String) : EntityM :=
  .mk { kind := kd, name := some nm, usr := "c:@" ++ nm, isDefinition := true,
        isInSystemHeader := false, defFile := none, locationPath := none,
        accessibility := none, isVirtualBase := false, typeDeclUsr := none,
        fullName := [nm] } []

/-- Claim C1.  For any two `Namespace` fragments with equal names,
`merge_with_namespace` succeeds exactly when the two entity names agree (a
mismatch is the fatal `assert_eq!`, not a recoverable error), and the merged
entry map satisfies, at every key, the spec's formula: if both fragments hold
namespaces at that key, their recursive merge; otherwise `other`'s entry
(last-write-wins), and `self`'s entry at keys `other` lacks.  Consequently
merging fragments with disjoint entry sets yields their union. -/
theorem c1_namespace_merge (e1 e2 : EntityM) (r1 r2 : Bool)
    (es1 es2 : Entries)
    (hs : wfEntries es1 = true) (ho : wfEntries es2 = true) :
    ((merge_with_namespace (.namespaceItem e1 r1 es1)
        (.namespaceItem e2 r2 es2)).isSome
      ↔ e1.get_name = e2.get_name)
    ∧ (e1.get_name = e2.get_name →
        ∃ res, merge_with_namespace (.namespaceItem e1 r1 es1)
              (.namespaceItem e2 r2 es2)
            = some (.namespaceItem e1 r1 res)
          ∧ (∀ key, lookupEntry res key = mergeSpecLookup es1 es2 key)
          ∧ ((∀ key, lookupEntry es1 key = none ∨ lookupEntry es2 key = none) →
              ∀ key x, lookupEntry res key = some x ↔
                (lookupEntry es1 key = some x ∨ lookupEntry es2 key = some x))) := by
  obtain ⟨res, heq, hwf, hform⟩ := mergeEntriesC_spec es1 es2 hs ho
  constructor
  · by_cases hn : e1.get_name = e2.get_name
    · simp [merge_with_namespace, hn, heq]
    · simp [merge_with_namespace, hn]
  · intro hn
    refine ⟨res, by simp [merge_with_namespace, hn, heq], hform, ?_⟩
    intro hd key x
    rw [hform key]
    unfold mergeSpecLookup
    cases ho2 : lookupEntry es2 key with
    | none => simp
    | some w =>
      have ho1 : lookupEntry es1 key = none := by
        rcases hd key with h | h
        · exact h
        · rw [h] at ho2; exact absurd ho2 (by simp)
      rw [ho1]
      cases w <;> simp

def c1SelfEntries : Entries := [("Widget", .classItem (wEnt .classDecl "Widget"))]

def c1OtherEntries : Entries := [("Gadget", .classItem (wEnt .classDecl "Gadget"))]

/-- Witness for C1 at a concrete input. -/
theorem c1_namespace_merge_witness :
    wfEntries c1SelfEntries = true ∧ wfEntries c1OtherEntries = true ∧
    ((merge_with_namespace
        (.namespaceItem (wEnt .namespaceDecl "ns") false c1SelfEntries)
        (.namespaceItem (wEnt .namespaceDecl "ns") true c1OtherEntries)).isSome
      ↔ (wEnt .namespaceDecl "ns").get_name = (wEnt .namespaceDecl "ns").get_name) :=
  have h1 : wfEntries c1SelfEntries = true := by
    simp [c1SelfEntries, wfEntries, wfItem, CppItem.itemName, CppItem.entity,
      wEnt, EntityM.get_name, EntityM.data]
  have h2 : wfEntries c1OtherEntries = true := by
    simp [c1OtherEntries, wfEntries, wfItem, CppItem.itemName, CppItem.entity,
      wEnt, EntityM.get_name, EntityM.data]
  ⟨h1, h2, (c1_namespace_merge (wEnt .namespaceDecl "ns") (wEnt .namespaceDecl "ns")
      false true c1SelfEntries c1OtherEntries h1 h2).1⟩

/-- Model of `Namespace::clean_empty_namespaces` (src/builder/namespace.rs lines
189-209), acting on an entry map: for each entry, if it is a namespace, clean
its entries recursively and then drop it iff the cleaned entry set is empty;
entries of every other variant are kept untouched. -/
def clean_empty_namespaces : Entries → Entries
  | [] => []
  | (k, v) :: rest =>
    match v with
    | .namespaceItem e r es =>
      if (clean_empty_namespaces es).isEmpty then clean_empty_namespaces rest
      else (k, .namespaceItem e r (clean_empty_namespaces es))
        :: clean_empty_namespaces rest
    | x => (k, x) :: clean_empty_namespaces rest
termination_by es => sizeOf es
decreasing_by all_goals simp_wf <;> omega

/-- The cleanup pass as `Namespace::new_root` invokes it
(src/builder/namespace.rs lines 162-171): `ret.clean_empty_namespaces()`
cleans the root's entries; the root itself is not an entry of any map and is
returned unconditionally. -/
def cleanRootNamespace : CppItem → CppItem
  | .namespaceItem e r es => .namespaceItem e r (clean_empty_namespaces es)
  | x => x

/-- The spec's per-key description of the cleanup: a namespace entry survives
iff it is non-empty once recursively cleaned (and then appears cleaned); any
other entry survives unchanged. -/
def cleanSpecLookup (es : Entries) (key : String) : Option CppItem :=
  match lookupEntry es key with
  | some (.namespaceItem e r es2) =>
    if (clean_empty_namespaces es2).isEmpty then none
    else some (.namespaceItem e r (clean_empty_namespaces es2))
  | other => other

theorem cleanSpecLookup_congr (es1 es2 : Entries) (key : String)
    (h : lookupEntry es1 key = lookupEntry es2 key) :
    cleanSpecLookup es1 key = cleanSpecLookup es2 key := by
  unfold cleanSpecLookup
  rw [h]

theorem keys_clean_sub (es : Entries) (key : String)
    (h : key ∈ (clean_empty_namespaces es).map Prod.fst) :
    key ∈ es.map Prod.fst := by
  induction es with
  | nil => simp [clean_empty_namespaces] at h
  | cons p rest ih =>
    obtain ⟨k, v⟩ := p
    cases v with
    | namespaceItem e r es2 =>
      by_cases he : (clean_empty_namespaces es2).isEmpty
      · rw [clean_empty_namespaces.eq_def] at h
        simp only [he, if_true] at h
        exact List.mem_cons_of_mem _ (ih h)
      · rw [clean_empty_namespaces.eq_def] at h
        simp only [Bool.not_eq_true] at he
        simp only [he, Bool.false_eq_true, if_false, List.map_cons,
          List.mem_cons] at h
        rcases h with h | h
        · simp [h]
        · exact List.mem_cons_of_mem _ (ih h)
    | classItem e =>
      rw [clean_empty_namespaces.eq_def] at h
      simp only [List.map_cons, List.mem_cons] at h
      rcases h with h | h
      · simp [h]
      · exact List.mem_cons_of_mem _ (ih h)
    | structItem e =>
      rw [clean_empty_namespaces.eq_def] at h
      simp only [List.map_cons, List.mem_cons] at h
      rcases h with h | h
      · simp [h]
      · exact List.mem_cons_of_mem _ (ih h)
    | functionItem e =>
      rw [clean_empty_namespaces.eq_def] at h
      simp only [List.map_cons, List.mem_cons] at h
      rcases h with h | h
      · simp [h]
      · exact List.mem_cons_of_mem _ (ih h)

theorem clean_cons_ns (k : String) (e : EntityM) (r : Bool) (es2 rest : Entries) :
    clean_empty_namespaces ((k, .namespaceItem e r es2) :: rest)
      = if (clean_empty_namespaces es2).isEmpty then clean_empty_namespaces rest
        else (k, .namespaceItem e r (clean_empty_namespaces es2))
          :: clean_empty_namespaces rest := by
  rw [clean_empty_namespaces.eq_def]

/-- Claim C2.  The post-order empty-namespace cleanup removes an entry iff it is
a `Namespace` whose entry set is empty once its own children have been
recursively cleaned; `Class`, `Struct` and `Function` entries are never
removed; and the root namespace that `new_root` cleans is returned
unconditionally, only its entries being cleaned. -/
theorem c2_clean_empty_namespaces (es : Entries)
    (hnd : (es.map Prod.fst).Nodup) :
    (∀ key, lookupEntry (clean_empty_namespaces es) key = cleanSpecLookup es key)
    ∧ (∀ (e : EntityM) (r : Bool) (es0 : Entries),
        cleanRootNamespace (.namespaceItem e r es0)
          = .namespaceItem e r (clean_empty_namespaces es0)) := by
  refine ⟨?_, fun e r es0 => rfl⟩
  induction es with
  | nil =>
    intro key
    simp [clean_empty_namespaces, cleanSpecLookup, lookupEntry]
  | cons p rest ih =>
    obtain ⟨k, v⟩ := p
    rw [List.map_cons, List.nodup_cons] at hnd
    have hk := hnd.1
    have ihh := ih hnd.2
    intro key
    by_cases hkey : key = k
    · subst hkey
      cases v with
      | namespaceItem e r es2 =>
        rw [clean_cons_ns]
        by_cases he : (clean_empty_namespaces es2).isEmpty
        · simp only [he, if_true]
          have h1 : lookupEntry (clean_empty_namespaces rest) key = none := by
            rw [lookupEntry_eq_none_iff]
            intro hmem
            exact hk (keys_clean_sub rest key hmem)
          rw [h1]
          unfold cleanSpecLookup
          simp [lookupEntry, he]
        · simp only [Bool.not_eq_true] at he
          simp only [he, Bool.false_eq_true, if_false]
          unfold cleanSpecLookup
          simp [lookupEntry, he]
      | classItem e =>
        rw [clean_empty_namespaces.eq_def]
        unfold cleanSpecLookup
        simp [lookupEntry]
      | structItem e =>
        rw [clean_empty_namespaces.eq_def]
        unfold cleanSpecLookup
        simp [lookupEntry]
      | functionItem e =>
        rw [clean_empty_namespaces.eq_def]
        unfold cleanSpecLookup
        simp [lookupEntry]
    · have hc : lookupEntry ((k, v) :: rest) key = lookupEntry rest key := by
        simp [lookupEntry, if_neg (Ne.symm hkey)]
      cases v with
      | namespaceItem e r es2 =>
        rw [clean_cons_ns]
        by_cases he : (clean_empty_namespaces es2).isEmpty
        · simp only [he, if_true]
          rw [ihh key]
          exact cleanSpecLookup_congr rest _ key hc.symm
        · simp only [Bool.not_eq_true] at he
          simp only [he, Bool.false_eq_true, if_false]
          rw [show lookupEntry ((k, CppItem.namespaceItem e r
              (clean_empty_namespaces es2)) :: clean_empty_namespaces rest) key
              = lookupEntry (clean_empty_namespaces rest) key from by
            simp [lookupEntry, if_neg (Ne.symm hkey)]]
          rw [ihh key]
          exact cleanSpecLookup_congr rest _ key hc.symm
      | classItem e =>
        rw [clean_empty_namespaces.eq_def]
        rw [show lookupEntry ((k, CppItem.classItem e)
            :: clean_empty_namespaces rest) key
            = lookupEntry (clean_empty_namespaces rest) key from by
          simp [lookupEntry, if_neg (Ne.symm hkey)]]
        rw [ihh key]
        exact cleanSpecLookup_congr rest _ key hc.symm
      | structItem e =>
        rw [clean_empty_namespaces.eq_def]
        rw [show lookupEntry ((k, CppItem.structItem e)
            :: clean_empty_namespaces rest) key
            = lookupEntry (clean_empty_namespaces rest) key from by
          simp [lookupEntry, if_neg (Ne.symm hkey)]]
        rw [ihh key]
        exact cleanSpecLookup_congr rest _ key hc.symm
      | functionItem e =>
        rw [clean_empty_namespaces.eq_def]
        rw [show lookupEntry ((k, CppItem.functionItem e)
            :: clean_empty_namespaces rest) key
            = lookupEntry (clean_empty_namespaces rest) key from by
          simp [lookupEntry, if_neg (Ne.symm hkey)]]
        rw [ihh key]
        exact cleanSpecLookup_congr rest _ key hc.symm

def c2Entries : Entries :=
  [("empty", .namespaceItem (wEnt .namespaceDecl "empty") false []),
   ("Widget", .classItem (wEnt .classDecl "Widget"))]

/-- Witness for C2 at a concrete input. -/
theorem c2_clean_empty_namespaces_witness :
    (c2Entries.map Prod.fst).Nodup ∧
    lookupEntry (clean_empty_namespaces c2Entries) "empty"
      = cleanSpecLookup c2Entries "empty" :=
  have h : (c2Entries.map Prod.fst).Nodup := by simp [c2Entries]
  ⟨h, (c2_clean_empty_namespaces c2Entries h).1 "empty"⟩

/-- Model of `config::ExternalLib`: path-substring pattern, repository browse URL,
exists-online flag (consumed by src/builder/traits.rs). -/
structure ExternalLibM where
  pattern : String
  repository : String
  existsOnline : Bool

/-- Model of `config::Ignore`: the two ignore-pattern lists.  A compiled regex is
modelled by its matching predicate. -/
structure IgnoreM where
  patterns_full : List (String → Bool)
  patterns_name : List (String → Bool)

/-- The slice of `config::Config` the traced core reads.  `siteBase` models
the configured output site base that `UrlPath::to_absolute` joins onto
(url.rs and config.rs are not under src/; modelled from the spec §3/§6). -/
structure ConfigM where
  inputDir : List String
  siteBase : List String
  projectTree : Option String
  externalLibs : List ExternalLibM
  ignore : Option IgnoreM

/-- Split a character list on slashes. -/
def splitSlash : List Char → List (List Char)
  | [] => [[]]
  | c :: rest =>
    if c = '/' then [] :: splitSlash rest
    else
      match splitSlash rest with
      | [] => [[c]]
      | h :: t => (c :: h) :: t

/-- Modelled from the spec: `UrlPath` parsing (url.rs is not under src/).  A
`UrlPath` is an ordered sequence of segments with no empty segments; parsing
splits on slashes, drops empty segments, and fails when nothing remains. -/
def urlParse (s : String) : Option (List String) :=
  let segs := ((splitSlash s.toList).map fun cs => String.mk cs).filter
    fun x => x ≠ ""
  if segs.isEmpty then none else some segs

/-- Modelled from the spec: `UrlPath` display (url.rs not under src/),
interleaving segments with slashes (round-trip with parsing). -/
def urlToString (u : List String) : String := String.intercalate "/" u

/-- Modelled from the spec: `UrlPath::to_absolute` (url.rs not under src/)
joins a relative URL onto the configured site base. -/
def to_absolute (cfg : ConfigM) (u : List String) : List String :=
  cfg.siteBase ++ u

/-- Modelled from the spec: `UrlPath::try_from` on a filesystem path (url.rs
not under src/): succeeds iff a non-empty sequence of non-empty segments
remains. -/
def urlTryFromPath (p : List String) : Option (List String) :=
  let segs := p.filter fun x => x ≠ ""
  if segs.isEmpty then none else some segs

def EntityM.definition_file (e : EntityM) : Option (List String) :=
  e.data.defFile

/-- Model of `EntityMethods::header` (src/builder/traits.rs lines 84-90): the defining
file's path, with the configured input directory stripped when it is a
prefix of it. -/
def EntityM.header (e : EntityM) (cfg : ConfigM) : Option (List String) :=
  e.definition_file.map fun p =>
    if cfg.inputDir.isPrefixOf p then p.drop cfg.inputDir.length else p

/-- Model of `str::contains` on character lists: some suffix starts with the needle. -/
def listContainsSub : List Char → List Char → Bool
  | [], needle => needle.isEmpty
  | c :: t, needle => needle.isPrefixOf (c :: t) || listContainsSub t needle

/-- Rust `str::contains(&pattern)`: substring containment. -/
def containsSub (hay pat : String) : Bool :=
  listContainsSub hay.toList pat.toList

/-- Model of `EntityMethods::get_allowed_external_lib` (src/builder/traits.rs lines
250-264): for an entity in a system header, the first configured external
library whose pattern occurs in the location's file path. -/
def EntityM.get_allowed_external_lib (e : EntityM) (cfg : ConfigM) :
    Option ExternalLibM :=
  if e.is_in_system_header then
    e.data.locationPath.bind fun p =>
      cfg.externalLibs.find? fun l => containsSub p l.pattern
  else none

/-- Model of `EntityMethods::rel_docs_url` (src/builder/traits.rs lines 92-98):
category segment followed by the fully-qualified name's segments, or no link
when the entity kind is unclassifiable. -/
def EntityM.rel_docs_url (e : EntityM) : Option (List String) :=
  (CppItemKind.fromKind e.get_kind).map fun k =>
    k.docs_category :: e.full_name

/-- The std branch of `EntityMethods::abs_docs_url` (src/builder/traits.rs
lines 102-108): an external cppreference URL synthesized from the defining
file's name and the entity's simple name. -/
def cppreferenceUrl (e : EntityM) : Option (List String) :=
  (e.definition_file.bind List.getLast?).bind fun f =>
    e.get_name.bind fun nm =>
      urlParse ("en.cppreference.com/w/cpp/" ++ f ++ "/" ++ nm)

/-- Model of `EntityMethods::abs_docs_url` (src/builder/traits.rs lines 100-112):
std entities are redirected to cppreference; everything else joins its
relative URL onto the site base. -/
def EntityM.abs_docs_url (e : EntityM) (cfg : ConfigM) : Option (List String) :=
  if e.full_name.head? = some "std" then cppreferenceUrl e
  else e.rel_docs_url.map (to_absolute cfg)

/-- Outcome type of `EntityMethods::github_url`: the `unreachable!` panic or a
gracefully returned optional URL. -/
inductive GithubUrlResult where
  | panicked
  | value (url : Option String)
deriving DecidableEq, Repr

/-- Model of `EntityMethods::github_url` (src/builder/traits.rs lines 114-131):
`unreachable!` on std entities; the matched external library's repository,
or the project tree base joined with the header path, otherwise. -/
def EntityM.github_url (e : EntityM) (cfg : ConfigM) : GithubUrlResult :=
  if e.full_name.head? = some "std" then .panicked
  else
    match e.get_allowed_external_lib cfg with
    | some lib => .value (some lib.repository)
    | none =>
      .value (cfg.projectTree.bind fun t =>
        (e.header cfg).bind fun h =>
          (urlTryFromPath h).map fun u => t ++ urlToString u)

theorem splitSlash_ne_nil (s : List Char) : splitSlash s ≠ [] := by
  induction s with
  | nil => simp [splitSlash]
  | cons c rest ih =>
    by_cases h : c = '/'
    · simp [splitSlash, h]
    · simp only [splitSlash, if_neg h]
      cases hs : splitSlash rest with
      | nil => simp
      | cons a t => simp

theorem splitSlash_append (pre s : List Char) (h : ('/' : Char) ∉ pre) :
    ∃ t, splitSlash s = ((splitSlash s).headI) :: t ∧
      splitSlash (pre ++ s) = (pre ++ (splitSlash s).headI) :: t := by
  induction pre with
  | nil =>
    cases hs : splitSlash s with
    | nil => exact absurd hs (splitSlash_ne_nil s)
    | cons a t => exact ⟨t, by simp [hs], by simp [hs]⟩
  | cons c rest ih =>
    have hc : c ≠ '/' := fun hcc => h (by simp [hcc])
    have hrest : ('/' : Char) ∉ rest := fun hm => h (List.mem_cons_of_mem _ hm)
    obtain ⟨t, ht1, ht2⟩ := ih hrest
    refine ⟨t, ht1, ?_⟩
    rw [List.cons_append]
    rw [splitSlash.eq_def]
    simp only [if_neg hc]
    rw [ht2]
    rfl

theorem urlParse_cpp (f nm : String) :
    ∃ restSegs, urlParse ("en.cppreference.com/w/cpp/" ++ f ++ "/" ++ nm)
      = some ("en.cppreference.com" :: restSegs) := by
  have hdecomp : ("en.cppreference.com/w/cpp/" ++ f ++ "/" ++ nm).toList
      = "en.cppreference.com".toList
        ++ ('/' :: ("w/cpp/".toList ++ f.toList ++ "/".toList ++ nm.toList)) := by
    have h1 : ("en.cppreference.com/w/cpp/" ++ f ++ "/" ++ nm).toList
        = "en.cppreference.com/w/cpp/".toList ++ f.toList ++ "/".toList
          ++ nm.toList := rfl
    rw [h1]
    have h2 : "en.cppreference.com/w/cpp/".toList
        = "en.cppreference.com".toList ++ ('/' :: "w/cpp/".toList) := by decide
    rw [h2]
    simp
  have hnoslash : ('/' : Char) ∉ "en.cppreference.com".toList := by decide
  obtain ⟨t, ht1, ht2⟩ := splitSlash_append "en.cppreference.com".toList
    ('/' :: ("w/cpp/".toList ++ f.toList ++ "/".toList ++ nm.toList)) hnoslash
  have hslash : splitSlash
      ('/' :: ("w/cpp/".toList ++ f.toList ++ "/".toList ++ nm.toList))
      = [] :: splitSlash ("w/cpp/".toList ++ f.toList ++ "/".toList ++ nm.toList) := by
    rw [splitSlash.eq_def]
    simp
  rw [hslash] at ht2
  simp only [List.headI] at ht2
  refine ⟨(t.map fun cs => String.mk cs).filter fun x => x ≠ "", ?_⟩
  unfold urlParse
  rw [hdecomp, ht2]
  have hmk : String.mk ("en.cppreference.com".toList) = "en.cppreference.com" := rfl
  have hne : ("en.cppreference.com" : String) ≠ "" := by decide
  simp [hmk, hne]

/-- Claim C5.  For an entity whose outermost fully-qualified-name segment is
"std", `abs_docs_url` is the external cppreference URL synthesized from the
defining file's name and the entity's simple name — a value independent of
the configuration whose leading segment is the external reference domain, so
no locally generated page URL is ever produced; for every other entity it is
`rel_docs_url` joined onto the configured site base. -/
theorem c5_abs_docs_url (e : EntityM) (cfg cfg2 : ConfigM) :
    (e.full_name.head? = some "std" →
      e.abs_docs_url cfg = cppreferenceUrl e
      ∧ e.abs_docs_url cfg = e.abs_docs_url cfg2
      ∧ (∀ f nm, e.definition_file.bind List.getLast? = some f →
          e.get_name = some nm →
          ∃ rest, e.abs_docs_url cfg = some ("en.cppreference.com" :: rest))
      ∧ (∀ u, e.abs_docs_url cfg = some u →
          u.head? = some "en.cppreference.com"))
    ∧ (e.full_name.head? ≠ some "std" →
      e.abs_docs_url cfg = e.rel_docs_url.map (to_absolute cfg)) := by
  constructor
  · intro hstd
    refine ⟨by simp [EntityM.abs_docs_url, hstd], by simp [EntityM.abs_docs_url, hstd], ?_, ?_⟩
    · intro f nm hf hn
      obtain ⟨rest, hrest⟩ := urlParse_cpp f nm
      refine ⟨rest, ?_⟩
      simp only [EntityM.abs_docs_url, hstd, if_pos]
      simp [cppreferenceUrl, hf, hn, hrest]
    · intro u hu
      simp only [EntityM.abs_docs_url, hstd, if_pos] at hu
      unfold cppreferenceUrl at hu
      cases hf : e.definition_file.bind List.getLast? with
      | none => rw [hf] at hu; simp at hu
      | some f =>
        rw [hf] at hu
        cases hn : e.get_name with
        | none => rw [hn] at hu; simp at hu
        | some nm =>
          rw [hn] at hu
          simp only [Option.some_bind] at hu
          obtain ⟨rest, hrest⟩ := urlParse_cpp f nm
          rw [hrest] at hu
          cases hu
          rfl
  · intro hnstd
    simp [EntityM.abs_docs_url, hnstd]

def c5StdEnt : EntityM :=
  .mk { kind := .classDecl, name := some "vector", usr := "c:@N@std@vector",
        isDefinition := true, isInSystemHeader := true,
        defFile := some ["usr", "include", "vector"],
        locationPath := some "/usr/include/vector",
        accessibility := none, isVirtualBase := false, typeDeclUsr := none,
        fullName := ["std", "vector"] } []

def cfgW : ConfigM :=
  { inputDir := ["proj"], siteBase := ["docs"],
    projectTree := some "https://github.com/geode-sdk/geode/tree/main/",
    externalLibs := [], ignore := none }

/-- Witness for C5 at a concrete std entity. -/
theorem c5_abs_docs_url_witness :
    c5StdEnt.full_name.head? = some "std" ∧
    c5StdEnt.abs_docs_url cfgW = cppreferenceUrl c5StdEnt :=
  have h : c5StdEnt.full_name.head? = some "std" := rfl
  ⟨h, ((c5_abs_docs_url c5StdEnt cfgW cfgW).1 h).1⟩

/-- Claim C6.  `rel_docs_url` is a pure function of the entity's classification
category and fully-qualified name alone: it is `none` exactly when the kind is
unclassifiable, otherwise the category segment (`namespaces`, `classes` —
shared by class and struct — or `functions`) followed by the qualified-name
segments; hence two entities with the same category segment and qualified
name receive the same URL. -/
theorem c6_rel_docs_url (e e1 e2 : EntityM) :
    (e.rel_docs_url = none ↔ CppItemKind.fromKind e.get_kind = none)
    ∧ (∀ k, CppItemKind.fromKind e.get_kind = some k →
        e.rel_docs_url = some (k.docs_category :: e.full_name))
    ∧ ((CppItemKind.fromKind e1.get_kind).map CppItemKind.docs_category
        = (CppItemKind.fromKind e2.get_kind).map CppItemKind.docs_category →
      e1.full_name = e2.full_name →
      e1.rel_docs_url = e2.rel_docs_url) := by
  refine ⟨?_, ?_, ?_⟩
  · unfold EntityM.rel_docs_url
    cases CppItemKind.fromKind e.get_kind <;> simp
  · intro k hk
    simp [EntityM.rel_docs_url, hk]
  · intro hcat hfn
    unfold EntityM.rel_docs_url
    cases h1 : CppItemKind.fromKind e1.get_kind with
    | none =>
      cases h2 : CppItemKind.fromKind e2.get_kind with
      | none => simp
      | some k2 => rw [h1, h2] at hcat; simp at hcat
    | some k1 =>
      cases h2 : CppItemKind.fromKind e2.get_kind with
      | none => rw [h1, h2] at hcat; simp at hcat
      | some k2 =>
        rw [h1, h2] at hcat
        simp at hcat
        simp [hfn, hcat]

/-- Witness for C6 at a concrete classified entity. -/
theorem c6_rel_docs_url_witness :
    CppItemKind.fromKind (wEnt .classDecl "Widget").get_kind
      = some .classKind ∧
    (wEnt .classDecl "Widget").rel_docs_url
      = some (CppItemKind.docs_category .classKind
          :: (wEnt .classDecl "Widget").full_name) :=
  ⟨rfl, (c6_rel_docs_url (wEnt .classDecl "Widget") (wEnt .classDecl "Widget")
      (wEnt .classDecl "Widget")).2.1 .classKind rfl⟩

/-- Claim C10.  `github_url` hits the `unreachable!` assertion exactly on
entities whose outermost fully-qualified-name segment is "std"; it returns
gracefully only for non-std entities, and then yields the matched external
library's repository URL when one matches. -/
theorem c10_github_url (e : EntityM) (cfg : ConfigM) :
    (e.full_name.head? = some "std" → e.github_url cfg = .panicked)
    ∧ (e.github_url cfg = .panicked ↔ e.full_name.head? = some "std")
    ∧ (e.full_name.head? ≠ some "std" →
        ∀ lib, e.get_allowed_external_lib cfg = some lib →
          e.github_url cfg = .value (some lib.repository)) := by
  refine ⟨fun h => by simp [EntityM.github_url, h], ?_, ?_⟩
  · constructor
    · intro h
      by_cases hstd : e.full_name.head? = some "std"
      · exact hstd
      · exfalso
        simp only [EntityM.github_url, hstd, if_false] at h
        cases hlib : e.get_allowed_external_lib cfg with
        | none => rw [hlib] at h; simp at h
        | some lib => rw [hlib] at h; simp at h
    · intro h
      simp [EntityM.github_url, h]
  · intro hstd lib hlib
    simp [EntityM.github_url, hstd, hlib]

def c10ProjEnt : EntityM :=
  .mk { kind := .classDecl, name := some "Widget", usr := "c:@S@Widget",
        isDefinition := true, isInSystemHeader := false,
        defFile := some ["proj", "include", "widget.hpp"],
        locationPath := some "/proj/include/widget.hpp",
        accessibility := none, isVirtualBase := false, typeDeclUsr := none,
        fullName := ["Widget"] } []

/-- Witness for C10: the std entity panics, the project entity does not. -/
theorem c10_github_url_witness :
    c5StdEnt.full_name.head? = some "std" ∧
    c5StdEnt.github_url cfgW = .panicked ∧
    c10ProjEnt.full_name.head? ≠ some "std" :=
  have h : c5StdEnt.full_name.head? = some "std" := rfl
  ⟨h, (c10_github_url c5StdEnt cfgW).1 h, by decide⟩

/-- Skip test 2 of `Namespace::load_entries` (src/builder/namespace.rs lines
219-224): the child sits in a system header and no external-library rule
covers it. -/
def skipExternal (cfg : ConfigM) (c : EntityM) : Bool :=
  c.is_in_system_header && (c.get_allowed_external_lib cfg).isNone

/-- Skip test 3 of `Namespace::load_entries` (src/builder/namespace.rs lines
226-232): std specializations and compiler-synthesized artifacts. -/
def skipStdBuiltin (full nm : String) : Bool :=
  full.startsWith "std::"
    || containsSub nm "deduction guide for"
    || containsSub nm "unnamed "

/-- Skip test 4 of `Namespace::load_entries` (src/builder/namespace.rs lines
234-242): the simple name starts with a character implausible for a
user-written identifier. -/
def weirdFirstChar (nm : String) : Bool :=
  match nm.toList.head? with
  | some ch => "()<>[]".toList.contains ch
  | none => false

/-- Which ignore pattern fired: an index into the qualified-name list or into
the simple-name list. -/
inductive IgnoreHit where
  | fullPat (i : Nat)
  | namePat (i : Nat)
deriving DecidableEq, Repr

/-- One `for pat in patterns` loop of the ignore check: index of the first
matching pattern. -/
def findMatchIdx : List (String → Bool) → String → Option Nat
  | [], _ => none
  | p :: rest, s =>
    if p s then some 0 else (findMatchIdx rest s).map (· + 1)

/-- The ignore check of `Namespace::load_entries` (src/builder/namespace.rs
lines 244-257): every qualified-name pattern is tried against the fully
qualified name before any simple-name pattern is tried against the simple
name; the first matching pattern ends the check (`continue 'entries`). -/
def ignoreHit (ig : Option IgnoreM) (full nm : String) : Option IgnoreHit :=
  match ig with
  | none => none
  | some ig =>
    match findMatchIdx ig.patterns_full full with
    | some i => some (.fullPat i)
    | none => (findMatchIdx ig.patterns_name nm).map .namePat

/-- The body of one iteration of the `'entries` loop of
`Namespace::load_entries` (src/builder/namespace.rs lines 212-292).
`nsResult` is the namespace subtree that `Namespace::new` builds for a
namespace-kind child (the Rust code only builds it in that branch; passing it
in keeps this function non-recursive, and it is ignored in every other
branch). -/
def classifyInsert (nsResult : Option CppItem) (cfg : ConfigM) (acc : Entries)
    (c : EntityM) : Option Entries :=
  match c.get_name with
  | none => some acc
  | some child_name =>
    if skipExternal cfg c then some acc
    else if skipStdBuiltin (String.intercalate "::" c.full_name) child_name then
      some acc
    else if weirdFirstChar child_name then some acc
    else if (ignoreHit cfg.ignore (String.intercalate "::" c.full_name)
        child_name).isSome then some acc
    else
      match CppItemKind.fromKind c.get_kind with
      | some .namespaceKind =>
        match nsResult with
        | some entry =>
          match lookupEntry acc entry.itemName with
          | some (.namespaceItem e0 r0 es0) =>
            (merge_with_namespace (.namespaceItem e0 r0 es0) entry).map
              fun merged => insertEntry acc entry.itemName merged
          | _ => some (insertEntry acc entry.itemName entry)
        | none => none
      | some .structKind =>
        if c.is_definition then
          some (insertEntry acc (CppItem.structItem c).itemName (.structItem c))
        else some acc
      | some .classKind =>
        if c.is_definition then
          some (insertEntry acc (CppItem.classItem c).itemName (.classItem c))
        else some acc
      | some .functionKind =>
        some (insertEntry acc (CppItem.functionItem c).itemName
          (.functionItem c))
      | none => some acc

mutual

/-- Model of `Namespace::new` (src/builder/namespace.rs lines 151-160) on a namespace
child: a fresh non-root namespace item whose entries are loaded from the
child's children (`none` models a panic escaping from a nested merge). -/
def newNamespaceItem (cfg : ConfigM) (c : EntityM) : Option CppItem :=
  match c with
  | .mk d cs =>
    (processChildren cfg cs []).map fun es =>
      .namespaceItem (.mk d cs) false es
termination_by 2 * sizeOf c
decreasing_by simp_wf

/-- One iteration of the `'entries` loop of `Namespace::load_entries`
(src/builder/namespace.rs lines 212-292), transforming the running entry map:
skip unnamed children, then the four skip tests, then classify and
materialize — namespaces recurse and merge into a same-named namespace entry
if present, classlikes are inserted only when definitions, functions always
(see `classifyInsert`, which holds the loop body with the recursively built
namespace subtree passed in). -/
def processChild (cfg : ConfigM) (acc : Entries) (c : EntityM) : Option Entries :=
  classifyInsert (newNamespaceItem cfg c) cfg acc c
termination_by 2 * sizeOf c + 1
decreasing_by simp_wf

/-- The `'entries` loop of `Namespace::load_entries` over a child list. -/
def processChildren (cfg : ConfigM) (cs : List EntityM) (acc : Entries) :
    Option Entries :=
  match cs with
  | [] => some acc
  | c :: rest =>
    match processChild cfg acc c with
    | some acc' => processChildren cfg rest acc'
    | none => none
termination_by 2 * sizeOf cs
decreasing_by
  all_goals simp_wf
  all_goals omega

end

/-- Model of `Namespace::new_root` (src/builder/namespace.rs lines 162-171): load the
root's entries, then run the empty-namespace cleanup; the root item itself is
always returned. -/
def new_root (cfg : ConfigM) (c : EntityM) : Option CppItem :=
  match c with
  | .mk d cs =>
    (processChildren cfg cs []).map fun es =>
      .namespaceItem (.mk d cs) true (clean_empty_namespaces es)

theorem findMatchIdx_isSome_iff (ps : List (String → Bool)) (s : String) :
    (findMatchIdx ps s).isSome = true ↔ ∃ p ∈ ps, p s = true := by
  induction ps with
  | nil => simp [findMatchIdx]
  | cons p rest ih =>
    by_cases hp : p s = true
    · constructor
      · intro _
        exact ⟨p, List.mem_cons_self p rest, hp⟩
      · intro _
        simp [findMatchIdx, hp]
    · constructor
      · intro h
        rw [show findMatchIdx (p :: rest) s = (findMatchIdx rest s).map (· + 1)
            from by simp [findMatchIdx, hp]] at h
        cases hrest : findMatchIdx rest s with
        | none => rw [hrest] at h; simp at h
        | some i =>
          obtain ⟨q, hq1, hq2⟩ := ih.mp (by rw [hrest]; rfl)
          exact ⟨q, List.mem_cons_of_mem _ hq1, hq2⟩
      · rintro ⟨q, hq1, hq2⟩
        rcases List.mem_cons.mp hq1 with rfl | hq1
        · exact absurd hq2 hp
        · have hrs := ih.mpr ⟨q, hq1, hq2⟩
          rw [show findMatchIdx (p :: rest) s = (findMatchIdx rest s).map (· + 1)
              from by simp [findMatchIdx, hp]]
          cases hrest : findMatchIdx rest s with
          | none => rw [hrest] at hrs; simp at hrs
          | some i => simp

theorem findMatchIdx_first (ps : List (String → Bool)) (s : String) (i : Nat)
    (h : findMatchIdx ps s = some i) :
    ∃ p, ps.get? i = some p ∧ p s = true
      ∧ ∀ j q, j < i → ps.get? j = some q → q s = false := by
  induction ps generalizing i with
  | nil => simp [findMatchIdx] at h
  | cons p rest ih =>
    by_cases hp : p s = true
    · rw [show findMatchIdx (p :: rest) s = some 0
          from by simp [findMatchIdx, hp]] at h
      injection h with h
      subst h
      exact ⟨p, rfl, hp, fun j q hj _ => absurd hj (Nat.not_lt_zero j)⟩
    · rw [show findMatchIdx (p :: rest) s = (findMatchIdx rest s).map (· + 1)
          from by simp [findMatchIdx, hp]] at h
      cases hrest : findMatchIdx rest s with
      | none => rw [hrest] at h; simp at h
      | some i0 =>
        rw [hrest] at h
        simp only [Option.map] at h
        injection h with h
        subst h
        obtain ⟨q, hq1, hq2, hq3⟩ := ih i0 hrest
        refine ⟨q, by simpa using hq1, hq2, ?_⟩
        intro j r hj hr
        cases j with
        | zero =>
          simp only [List.get?_cons_zero] at hr
          injection hr with hr
          subst hr
          revert hp
          cases p s <;> simp
        | succ j0 =>
          have hj0 : j0 < i0 := by omega
          exact hq3 j0 r hj0 (by simpa using hr)

theorem patterns_none_of_findMatchIdx_none (ps : List (String → Bool))
    (s : String) (h : findMatchIdx ps s = none) :
    ∀ p ∈ ps, p s = false := by
  intro p hp
  by_cases hps : p s = true
  · have := (findMatchIdx_isSome_iff ps s).mpr ⟨p, hp, hps⟩
    rw [h] at this
    simp at this
  · revert hps; cases p s <;> simp

theorem ignoreHit_some (ig : IgnoreM) (full nm : String) :
    ignoreHit (some ig) full nm
      = match findMatchIdx ig.patterns_full full with
        | some i => some (.fullPat i)
        | none => (findMatchIdx ig.patterns_name nm).map .namePat := rfl

/-- Claim C8.  During tree building an entity is dropped at the ignore stage
exactly when some pattern matches — a match in either list suffices — with
every qualified-name pattern tested against the fully-qualified name before
any simple-name pattern is tested against the simple name, and the first
matching pattern ending the check. -/
theorem c8_ignore_rules (ig : IgnoreM) (full nm : String) :
    ((ignoreHit (some ig) full nm).isSome = true ↔
      (∃ p ∈ ig.patterns_full, p full = true)
        ∨ (∃ p ∈ ig.patterns_name, p nm = true))
    ∧ ((∃ p ∈ ig.patterns_full, p full = true) →
        ∃ i, ignoreHit (some ig) full nm = some (.fullPat i))
    ∧ (∀ i, ignoreHit (some ig) full nm = some (.fullPat i) →
        ∃ p, ig.patterns_full.get? i = some p ∧ p full = true
          ∧ ∀ j q, j < i → ig.patterns_full.get? j = some q → q full = false)
    ∧ (∀ i, ignoreHit (some ig) full nm = some (.namePat i) →
        (∀ p ∈ ig.patterns_full, p full = false)
          ∧ ∃ p, ig.patterns_name.get? i = some p ∧ p nm = true
            ∧ ∀ j q, j < i → ig.patterns_name.get? j = some q → q nm = false)
    ∧ (∀ (cfg : ConfigM) (acc : Entries) (c : EntityM),
        cfg.ignore = some ig → c.get_name = some nm →
        String.intercalate "::" c.full_name = full →
        skipExternal cfg c = false →
        skipStdBuiltin full nm = false →
        weirdFirstChar nm = false →
        (ignoreHit (some ig) full nm).isSome = true →
        processChild cfg acc c = some acc) := by
  refine ⟨?_, ?_, ?_, ?_, ?_⟩
  · rw [ignoreHit_some]
    cases hf : findMatchIdx ig.patterns_full full with
    | some i =>
      constructor
      · intro _
        exact Or.inl ((findMatchIdx_isSome_iff _ _).mp (by rw [hf]; rfl))
      · intro _
        rfl
    | none =>
      have hnone := patterns_none_of_findMatchIdx_none _ _ hf
      cases hn : findMatchIdx ig.patterns_name nm with
      | some i =>
        constructor
        · intro _
          exact Or.inr ((findMatchIdx_isSome_iff _ _).mp (by rw [hn]; rfl))
        · intro _
          rfl
      | none =>
        have hnone2 := patterns_none_of_findMatchIdx_none _ _ hn
        constructor
        · intro h
          simp at h
        · rintro (⟨p, hp, hps⟩ | ⟨p, hp, hps⟩)
          · rw [hnone p hp] at hps; simp at hps
          · rw [hnone2 p hp] at hps; simp at hps
  · intro hex
    have hsome := (findMatchIdx_isSome_iff ig.patterns_full full).mpr hex
    cases hf : findMatchIdx ig.patterns_full full with
    | none => rw [hf] at hsome; simp at hsome
    | some i =>
      refine ⟨i, ?_⟩
      rw [ignoreHit_some, hf]
  · intro i hi
    rw [ignoreHit_some] at hi
    cases hf : findMatchIdx ig.patterns_full full with
    | some i0 =>
      rw [hf] at hi
      injection hi with hi
      injection hi with hi
      subst hi
      exact findMatchIdx_first _ _ i0 hf
    | none =>
      rw [hf] at hi
      cases hn : findMatchIdx ig.patterns_name nm with
      | none => rw [hn] at hi; simp at hi
      | some i1 => rw [hn] at hi; simp at hi
  · intro i hi
    rw [ignoreHit_some] at hi
    cases hf : findMatchIdx ig.patterns_full full with
    | some i0 => rw [hf] at hi; simp at hi
    | none =>
      rw [hf] at hi
      cases hn : findMatchIdx ig.patterns_name nm with
      | none => rw [hn] at hi; simp at hi
      | some i1 =>
        rw [hn] at hi
        simp only [Option.map] at hi
        injection hi with hi
        injection hi with hi
        subst hi
        exact ⟨patterns_none_of_findMatchIdx_none _ _ hf,
          findMatchIdx_first _ _ i1 hn⟩
  · intro cfg acc c hcfg hname hfull h2 h3 h4 hig
    rw [processChild.eq_def]
    unfold classifyInsert
    rw [hname]
    simp only [h2, hfull, hcfg, h3, h4, hig, Bool.false_eq_true, if_false,
      if_true]

def c8Ig : IgnoreM :=
  { patterns_full := [fun s => (s = "detail::Impl" : Bool)],
    patterns_name := [fun s => (s = "Impl" : Bool)] }

/-- Witness for C8 at a concrete ignore-rule set. -/
theorem c8_ignore_rules_witness :
    (∃ p ∈ c8Ig.patterns_full, p "detail::Impl" = true) ∧
    ∃ i, ignoreHit (some c8Ig) "detail::Impl" "Impl" = some (.fullPat i) :=
  have hex : ∃ p ∈ c8Ig.patterns_full, p "detail::Impl" = true :=
    ⟨fun s => (s = "detail::Impl" : Bool), by simp [c8Ig], by simp⟩
  ⟨hex, (c8_ignore_rules c8Ig "detail::Impl" "Impl").2.1 hex⟩

/-- Claim C9.  For a surviving child: a Class or Struct child is materialized
only when it is a definition — a forward declaration produces no Item and
leaves the entry map unchanged — whereas a Function child is always inserted
and unconditionally overwrites any existing entry under the same simple name
(no overload disambiguation). -/
theorem c9_classify_materialize (cfg : ConfigM) (acc : Entries) (c : EntityM)
    (nm : String)
    (hname : c.get_name = some nm)
    (h2 : skipExternal cfg c = false)
    (h3 : skipStdBuiltin (String.intercalate "::" c.full_name) nm = false)
    (h4 : weirdFirstChar nm = false)
    (h5 : (ignoreHit cfg.ignore (String.intercalate "::" c.full_name) nm).isSome
      = false) :
    (CppItemKind.fromKind c.get_kind = some .structKind →
      (c.is_definition = false → processChild cfg acc c = some acc)
      ∧ (c.is_definition = true →
        processChild cfg acc c
          = some (insertEntry acc (CppItem.structItem c).itemName
              (.structItem c))))
    ∧ (CppItemKind.fromKind c.get_kind = some .classKind →
      (c.is_definition = false → processChild cfg acc c = some acc)
      ∧ (c.is_definition = true →
        processChild cfg acc c
          = some (insertEntry acc (CppItem.classItem c).itemName
              (.classItem c))))
    ∧ (CppItemKind.fromKind c.get_kind = some .functionKind →
      processChild cfg acc c
        = some (insertEntry acc (CppItem.functionItem c).itemName
            (.functionItem c))
      ∧ lookupEntry (insertEntry acc (CppItem.functionItem c).itemName
          (.functionItem c)) (CppItem.functionItem c).itemName
        = some (.functionItem c)) := by
  refine ⟨?_, ?_, ?_⟩
  · intro hk
    constructor
    · intro hdef
      rw [processChild.eq_def]
      unfold classifyInsert
      rw [hname]
      simp only [h2, h3, h4, h5, Bool.false_eq_true, if_false, hk, hdef]
    · intro hdef
      rw [processChild.eq_def]
      unfold classifyInsert
      rw [hname]
      simp only [h2, h3, h4, h5, Bool.false_eq_true, if_false, hk, hdef,
        if_true]
  · intro hk
    constructor
    · intro hdef
      rw [processChild.eq_def]
      unfold classifyInsert
      rw [hname]
      simp only [h2, h3, h4, h5, Bool.false_eq_true, if_false, hk, hdef]
    · intro hdef
      rw [processChild.eq_def]
      unfold classifyInsert
      rw [hname]
      simp only [h2, h3, h4, h5, Bool.false_eq_true, if_false, hk, hdef,
        if_true]
  · intro hk
    constructor
    · rw [processChild.eq_def]
      unfold classifyInsert
      rw [hname]
      simp only [h2, h3, h4, h5, Bool.false_eq_true, if_false, hk]
    · rw [lookupEntry_insertEntry, if_pos rfl]

def c9StructFwd : EntityM :=
  .mk { kind := .structDecl, name := some "Fwd", usr := "c:@S@Fwd",
        isDefinition := false, isInSystemHeader := false, defFile := none,
        locationPath := none, accessibility := none, isVirtualBase := false,
        typeDeclUsr := none, fullName := ["Fwd"] } []

/-- Witness for C9: a struct forward declaration produces no entry. -/
theorem c9_classify_materialize_witness :
    c9StructFwd.get_name = some "Fwd" ∧
    c9StructFwd.is_definition = false ∧
    processChild cfgW [] c9StructFwd = some [] :=
  ⟨rfl, rfl,
    ((c9_classify_materialize cfgW [] c9StructFwd "Fwd" rfl (by decide)
        (by decide) (by decide) (by decide)).1 rfl).1 rfl⟩

mutual

/-- The item-collection walk `CppItem::get` (src/builder/namespace.rs lines
53-84): push the item itself when the matcher accepts it; a namespace then
recurses into its entries. -/
def getItems (matcher : CppItem → Bool) (it : CppItem) : List CppItem :=
  match it with
  | .namespaceItem e r es =>
    (if matcher (.namespaceItem e r es) then [.namespaceItem e r es] else [])
      ++ getItemsEntries matcher es
  | x => if matcher x then [x] else []
termination_by sizeOf it
decreasing_by all_goals simp_wf

/-- Walk of `CppItem::get` over the values of an entry map, in order. -/
def getItemsEntries (matcher : CppItem → Bool) (es : Entries) : List CppItem :=
  match es with
  | [] => []
  | (_, v) :: rest => getItems matcher v ++ getItemsEntries matcher rest
termination_by sizeOf es
decreasing_by all_goals simp_wf <;> omega

end

/-- Model of `get_all_classes` (src/builder/shared.rs lines 46-48): `Namespace::get`
on the root — which walks the root's entries, never the root itself — with
the classlike matcher. -/
def get_all_classes (rootEntries : Entries) : List CppItem :=
  getItemsEntries (fun it => it.category = "class" || it.category = "struct")
    rootEntries

mutual

/-- Every item of a subtree, the subtree's own root first (the reference
enumeration that `CppItem::get` is compared against). -/
def allItems (it : CppItem) : List CppItem :=
  match it with
  | .namespaceItem e r es =>
    CppItem.namespaceItem e r es :: allItemsEntries es
  | x => [x]
termination_by sizeOf it
decreasing_by all_goals simp_wf

/-- Every item reachable from an entry map, in entry order. -/
def allItemsEntries (es : Entries) : List CppItem :=
  match es with
  | [] => []
  | (_, v) :: rest => allItems v ++ allItemsEntries rest
termination_by sizeOf es
decreasing_by all_goals simp_wf <;> omega

end

theorem getItems_eq_filter : ∀ n : Nat,
    (∀ (matcher : CppItem → Bool) (it : CppItem), sizeOf it ≤ n →
      getItems matcher it = (allItems it).filter matcher)
    ∧ (∀ (matcher : CppItem → Bool) (es : Entries), sizeOf es ≤ n →
      getItemsEntries matcher es = (allItemsEntries es).filter matcher) := by
  intro n
  induction n using Nat.strong_induction_on with
  | _ n ih =>
    constructor
    · intro matcher it hsz
      cases it with
      | namespaceItem e r es =>
        have hes : sizeOf es < n := by
          have : sizeOf es < sizeOf (CppItem.namespaceItem e r es) := by
            simp only [CppItem.namespaceItem.sizeOf_spec]; omega
          omega
        rw [getItems.eq_def, allItems.eq_def]
        simp only
        rw [(ih (sizeOf es) hes).2 matcher es le_rfl, List.filter_cons]
        by_cases hm : matcher (.namespaceItem e r es)
        · simp [hm]
        · simp [hm]
      | classItem e =>
        rw [getItems.eq_def, allItems.eq_def]
        simp [List.filter_cons]
      | structItem e =>
        rw [getItems.eq_def, allItems.eq_def]
        simp [List.filter_cons]
      | functionItem e =>
        rw [getItems.eq_def, allItems.eq_def]
        simp [List.filter_cons]
    · intro matcher es hsz
      cases es with
      | nil => rw [getItemsEntries.eq_def, allItemsEntries.eq_def]; simp
      | cons p rest =>
        obtain ⟨k, v⟩ := p
        have hv : sizeOf v < n := by
          have : sizeOf v < sizeOf ((k, v) :: rest) := by
            simp only [List.cons.sizeOf_spec, Prod.mk.sizeOf_spec]; omega
          omega
        have hr : sizeOf rest < n := by
          have : sizeOf rest < sizeOf ((k, v) :: rest) := by
            simp only [List.cons.sizeOf_spec, Prod.mk.sizeOf_spec]; omega
          omega
        rw [getItemsEntries.eq_def, allItemsEntries.eq_def]
        simp only
        rw [(ih (sizeOf v) hv).1 matcher v le_rfl,
          (ih (sizeOf rest) hr).2 matcher rest le_rfl, List.filter_append]

/-- The base-specifier test of the derived-classes query
(src/builder/shared.rs lines 558-570): the child is a base specifier whose
type's resolved declaration has the target's unique symbol id. -/
def baseMatches (targetUsr : String) (child : EntityM) : Bool :=
  (child.get_kind = RawKind.baseSpecifier : Bool)
    && ((child.data.typeDeclUsr.map fun u => (u = targetUsr : Bool)).getD false)

/-- The sort key of the derived-classes query (src/builder/shared.rs line
573): the simple name, `"_"` when absent. -/
def sortKeyName (it : CppItem) : String := it.entity.get_name.getD "_"

/-- Insertion step of the ascending-by-name sort (Rust's stable
`sort_by_key`; only the sorted order and membership matter to the claim). -/
def insertByName (x : CppItem) : List CppItem → List CppItem
  | [] => [x]
  | y :: rest =>
    if sortKeyName x ≤ sortKeyName y then x :: y :: rest
    else y :: insertByName x rest

/-- Ascending-by-name sort of the derived-classes query. -/
def sortByName : List CppItem → List CppItem
  | [] => []
  | x :: rest => insertByName x (sortByName rest)

/-- The derived-classes section of `output_classlike`
(src/builder/shared.rs lines 553-579): every classlike item of the whole
finished tree with at least one base specifier resolving to the target's
unique symbol id, sorted ascending by simple name. -/
def derived_classes (rootEntries : Entries) (target : EntityM) :
    List CppItem :=
  sortByName ((get_all_classes rootEntries).filter
    fun it => it.entity.get_children.any (baseMatches target.get_usr))

theorem mem_insertByName (x a : CppItem) (l : List CppItem) :
    a ∈ insertByName x l ↔ a = x ∨ a ∈ l := by
  induction l with
  | nil => simp [insertByName]
  | cons y rest ih =>
    by_cases h : sortKeyName x ≤ sortKeyName y
    · simp [insertByName, h]
    · simp [insertByName, h, ih]
      tauto

theorem mem_sortByName (a : CppItem) (l : List CppItem) :
    a ∈ sortByName l ↔ a ∈ l := by
  induction l with
  | nil => simp [sortByName]
  | cons x rest ih =>
    simp [sortByName, mem_insertByName, ih]

theorem pairwise_insertByName (x : CppItem) (l : List CppItem)
    (h : l.Pairwise fun a b => sortKeyName a ≤ sortKeyName b) :
    (insertByName x l).Pairwise fun a b => sortKeyName a ≤ sortKeyName b := by
  induction l with
  | nil => simp [insertByName]
  | cons y rest ih =>
    rw [List.pairwise_cons] at h
    by_cases hle : sortKeyName x ≤ sortKeyName y
    · rw [show insertByName x (y :: rest) = x :: y :: rest from by
        simp [insertByName, hle]]
      rw [List.pairwise_cons]
      refine ⟨?_, List.pairwise_cons.mpr h⟩
      intro b hb
      rcases List.mem_cons.mp hb with rfl | hb
      · exact hle
      · exact le_trans hle (h.1 b hb)
    · rw [show insertByName x (y :: rest) = y :: insertByName x rest from by
        simp [insertByName, hle]]
      rw [List.pairwise_cons]
      refine ⟨?_, ih h.2⟩
      intro b hb
      rcases (mem_insertByName x b rest).mp hb with rfl | hb
      · exact le_of_not_le hle
      · exact h.1 b hb

theorem pairwise_sortByName (l : List CppItem) :
    (sortByName l).Pairwise fun a b => sortKeyName a ≤ sortKeyName b := by
  induction l with
  | nil => simp [sortByName]
  | cons x rest ih => exact pairwise_insertByName x _ ih

/-- Claim C3.  `derived_classes(target)` contains exactly the classlike items
of the whole finished tree having at least one declared base specifier whose
resolved declaration carries the target's unique symbol id — a predicate
that never reads the base's access specifier or virtual-inheritance flag —
and the result is sorted ascending by simple name. -/
theorem c3_derived_classes (rootEntries : Entries) (target : EntityM) :
    (∀ x, x ∈ derived_classes rootEntries target ↔
      (x ∈ allItemsEntries rootEntries
        ∧ (x.category = "class" ∨ x.category = "struct")
        ∧ x.entity.get_children.any (baseMatches target.get_usr) = true))
    ∧ (derived_classes rootEntries target).Pairwise
        (fun a b => sortKeyName a ≤ sortKeyName b)
    ∧ (∀ (usr : String) (d : EData) (cs : List EntityM)
        (acc : Option AccessM) (vb : Bool),
        baseMatches usr
            (.mk { d with accessibility := acc, isVirtualBase := vb } cs)
          = baseMatches usr (.mk d cs)) := by
  refine ⟨?_, ?_, ?_⟩
  · intro x
    unfold derived_classes
    rw [mem_sortByName, List.mem_filter]
    unfold get_all_classes
    rw [(getItems_eq_filter (sizeOf rootEntries)).2 _ rootEntries le_rfl,
      List.mem_filter]
    constructor
    · rintro ⟨⟨h1, h2⟩, h3⟩
      refine ⟨h1, ?_, h3⟩
      revert h2
      by_cases hc : x.category = "class"
      · intro _; exact Or.inl hc
      · by_cases hs : x.category = "struct"
        · intro _; exact Or.inr hs
        · intro h2
          simp [hc, hs] at h2
    · rintro ⟨h1, h2, h3⟩
      refine ⟨⟨h1, ?_⟩, h3⟩
      rcases h2 with h2 | h2 <;> simp [h2]
  · exact pairwise_sortByName _
  · intro usr d cs acc vb
    unfold baseMatches
    simp [EntityM.get_kind, EntityM.data]

def c3Base : EntityM :=
  .mk { kind := .classDecl, name := some "Widget", usr := "c:@S@Widget",
        isDefinition := true, isInSystemHeader := false, defFile := none,
        locationPath := none, accessibility := none, isVirtualBase := false,
        typeDeclUsr := none, fullName := ["ns", "Widget"] } []

def c3BaseSpec : EntityM :=
  .mk { kind := .baseSpecifier, name := none, usr := "",
        isDefinition := false, isInSystemHeader := false, defFile := none,
        locationPath := none, accessibility := some .publicAcc,
        isVirtualBase := false, typeDeclUsr := some "c:@S@Widget",
        fullName := [] } []

def c3Derived : EntityM :=
  .mk { kind := .classDecl, name := some "Gadget", usr := "c:@S@Gadget",
        isDefinition := true, isInSystemHeader := false, defFile := none,
        locationPath := none, accessibility := none, isVirtualBase := false,
        typeDeclUsr := none, fullName := ["ns", "Gadget"] } [c3BaseSpec]

def c3Entries : Entries :=
  [("Widget", .classItem c3Base), ("Gadget", .classItem c3Derived)]

/-- Witness for C3 at a concrete two-class tree. -/
theorem c3_derived_classes_witness :
    (CppItem.classItem c3Derived ∈ derived_classes c3Entries c3Base ↔
      (CppItem.classItem c3Derived ∈ allItemsEntries c3Entries
        ∧ ((CppItem.classItem c3Derived).category = "class"
            ∨ (CppItem.classItem c3Derived).category = "struct")
        ∧ (CppItem.classItem c3Derived).entity.get_children.any
            (baseMatches c3Base.get_usr) = true)) :=
  (c3_derived_classes c3Entries c3Base).1 (CppItem.classItem c3Derived)

/-- Modelled from the spec (§4.5): one word token of the prose held by the
`Annotations` cursor (annotation.rs is not under src/), carrying its original
word and, once rewritten, the replacement link text. -/
structure Token where
  word : String
  link : Option String

/-- The all-lowercase test of `fmt_autolinks_recursive`
(src/builder/shared.rs line 605), `word.chars().all(|c| c.is_lowercase())`. -/
def allLowercase (s : String) : Bool := s.toList.all Char.isLower

/-- The per-token body of one autolink pass (src/builder/shared.rs lines
602-609): when the word is not entirely lowercase and equals the entity's
simple name, and the entity has an absolute documentation URL, the token is
rewritten into a link to it. -/
def tokStep (nm : String) (url : Option (List String)) (t : Token) : Token :=
  if !allLowercase t.word && (t.word = nm : Bool) then
    match url with
    | some u =>
      { t with link := some ("[" ++ t.word ++ "](" ++ urlToString u ++ ")") }
    | none => t
  else t

/-- One scan of the prose (`annotations.rewind(); while let Some(word) =
annotations.next()`, src/builder/shared.rs lines 601-610) for one entity:
every token is visited once, in order. -/
def annotatePass (nm : String) (url : Option (List String))
    (ts : List Token) : List Token :=
  ts.map (tokStep nm url)

mutual

/-- Model of `fmt_autolinks_recursive` (src/builder/shared.rs lines 596-617): scan the
prose for this item's name, then recurse into a namespace's entries. -/
def fmt_autolinks_recursive (cfg : ConfigM) (it : CppItem)
    (ts : List Token) : List Token :=
  match it with
  | .namespaceItem e r es =>
    autolinkEntries cfg es
      (annotatePass (CppItem.namespaceItem e r es).itemName
        ((CppItem.namespaceItem e r es).entity.abs_docs_url cfg) ts)
  | x => annotatePass x.itemName (x.entity.abs_docs_url cfg) ts
termination_by sizeOf it
decreasing_by all_goals simp_wf

/-- The recursion of `fmt_autolinks_recursive` over a namespace's entries. -/
def autolinkEntries (cfg : ConfigM) (es : Entries) (ts : List Token) :
    List Token :=
  match es with
  | [] => ts
  | (_, v) :: rest => autolinkEntries cfg rest (fmt_autolinks_recursive cfg v ts)
termination_by sizeOf es
decreasing_by all_goals simp_wf <;> omega

end

/-- Model of `fmt_autolinks` (src/builder/shared.rs lines 619-625): run the recursive
pass over every entry of the root. -/
def fmt_autolinks (cfg : ConfigM) (rootEntries : Entries)
    (ts : List Token) : List Token :=
  autolinkEntries cfg rootEntries ts

/-- Folding the single-entity passes over a visit list. -/
def foldAnnotate (cfg : ConfigM) (L : List CppItem) (ts : List Token) :
    List Token :=
  L.foldl (fun acc x =>
    annotatePass x.itemName (x.entity.abs_docs_url cfg) acc) ts

theorem autolink_eq_fold : ∀ n : Nat,
    (∀ (cfg : ConfigM) (it : CppItem) (ts : List Token), sizeOf it ≤ n →
      fmt_autolinks_recursive cfg it ts = foldAnnotate cfg (allItems it) ts)
    ∧ (∀ (cfg : ConfigM) (es : Entries) (ts : List Token), sizeOf es ≤ n →
      autolinkEntries cfg es ts = foldAnnotate cfg (allItemsEntries es) ts) := by
  intro n
  induction n using Nat.strong_induction_on with
  | _ n ih =>
    constructor
    · intro cfg it ts hsz
      cases it with
      | namespaceItem e r es =>
        have hes : sizeOf es < n := by
          have : sizeOf es < sizeOf (CppItem.namespaceItem e r es) := by
            simp only [CppItem.namespaceItem.sizeOf_spec]; omega
          omega
        rw [fmt_autolinks_recursive.eq_def, allItems.eq_def]
        simp only
        rw [(ih (sizeOf es) hes).2 cfg es _ le_rfl]
        rfl
      | classItem e =>
        rw [fmt_autolinks_recursive.eq_def, allItems.eq_def]
        rfl
      | structItem e =>
        rw [fmt_autolinks_recursive.eq_def, allItems.eq_def]
        rfl
      | functionItem e =>
        rw [fmt_autolinks_recursive.eq_def, allItems.eq_def]
        rfl
    · intro cfg es ts hsz
      cases es with
      | nil =>
        rw [autolinkEntries.eq_def, allItemsEntries.eq_def]
        rfl
      | cons p rest =>
        obtain ⟨k, v⟩ := p
        have hv : sizeOf v < n := by
          have : sizeOf v < sizeOf ((k, v) :: rest) := by
            simp only [List.cons.sizeOf_spec, Prod.mk.sizeOf_spec]; omega
          omega
        have hr : sizeOf rest < n := by
          have : sizeOf rest < sizeOf ((k, v) :: rest) := by
            simp only [List.cons.sizeOf_spec, Prod.mk.sizeOf_spec]; omega
          omega
        rw [autolinkEntries.eq_def, allItemsEntries.eq_def]
        simp only
        rw [(ih (sizeOf v) hv).1 cfg v ts le_rfl,
          (ih (sizeOf rest) hr).2 cfg rest _ le_rfl]
        unfold foldAnnotate
        rw [List.foldl_append]

theorem tokStep_word (nm : String) (url : Option (List String)) (t : Token) :
    (tokStep nm url t).word = t.word := by
  unfold tokStep
  split
  · cases url <;> rfl
  · rfl

theorem tokStep_link (nm : String) (url : Option (List String)) (t : Token) :
    (tokStep nm url t).link ≠ none ↔
      (t.link ≠ none
        ∨ (allLowercase t.word = false ∧ t.word = nm
            ∧ url.isSome = true)) := by
  cases hA : allLowercase t.word with
  | true =>
    rw [show tokStep nm url t = t from by simp [tokStep, hA]]
    simp [hA]
  | false =>
    by_cases hW : t.word = nm
    · cases url with
      | none =>
        rw [show tokStep nm (none : Option (List String)) t = t from by
          unfold tokStep; split <;> rfl]
        simp
      | some u =>
        have hc : (!allLowercase t.word && (t.word = nm : Bool)) = true := by
          rw [hA]
          simp [hW]
        rw [show tokStep nm (some u) t
            = { t with link := some ("[" ++ t.word ++ "](" ++ urlToString u
                ++ ")") } from by unfold tokStep; rw [hc]; rfl]
        simp [hA, hW]
    · rw [show tokStep nm url t = t from by simp [tokStep, hW]]
      simp [hW]

theorem foldAnnotate_get? (cfg : ConfigM) (L : List CppItem) :
    ∀ (ts : List Token) (i : Nat) (t : Token), ts.get? i = some t →
      ∃ t', (foldAnnotate cfg L ts).get? i = some t'
        ∧ t'.word = t.word
        ∧ (t'.link ≠ none ↔
            (t.link ≠ none
              ∨ ∃ x ∈ L, allLowercase t.word = false ∧ t.word = x.itemName
                  ∧ (x.entity.abs_docs_url cfg).isSome = true)) := by
  induction L with
  | nil =>
    intro ts i t h
    exact ⟨t, by simpa [foldAnnotate] using h, rfl, by simp⟩
  | cons x L ih =>
    intro ts i t h
    have h1 : (annotatePass x.itemName (x.entity.abs_docs_url cfg) ts).get? i
        = some (tokStep x.itemName (x.entity.abs_docs_url cfg) t) := by
      unfold annotatePass
      rw [List.get?_map, h]
      rfl
    obtain ⟨t', ht1, ht2, ht3⟩ := ih _ i _ h1
    rw [tokStep_word] at ht2
    simp only [tokStep_word] at ht3
    rw [tokStep_link] at ht3
    refine ⟨t', ht1, ht2, ?_⟩
    rw [ht3]
    constructor
    · rintro ((h0 | hx) | ⟨y, hy, hc⟩)
      · exact Or.inl h0
      · exact Or.inr ⟨x, List.mem_cons_self x L, hx⟩
      · exact Or.inr ⟨y, List.mem_cons_of_mem _ hy, hc⟩
    · rintro (h0 | ⟨y, hy, hc⟩)
      · exact Or.inl (Or.inl h0)
      · rcases List.mem_cons.mp hy with rfl | hy
        · exact Or.inl (Or.inr hc)
        · exact Or.inr ⟨y, hy, hc⟩

/-- Claim C4.  Starting from unannotated prose, a word token ends up rewritten
into a link exactly when it equals the simple name of some entity of the tree
and is not composed entirely of lowercase characters — an all-lowercase word
is never linked even when a same-named entity exists (assuming, as the
builder guarantees for tree entities, that every entity has an absolute
documentation URL). -/
theorem c4_autolinks (cfg : ConfigM) (rootEntries : Entries)
    (ws : List String)
    (hurl : ∀ x ∈ allItemsEntries rootEntries,
      (x.entity.abs_docs_url cfg).isSome = true) :
    ∀ i w, ws.get? i = some w →
      ∃ t, (fmt_autolinks cfg rootEntries
          (ws.map fun w0 => Token.mk w0 none)).get? i = some t
        ∧ t.word = w
        ∧ (t.link ≠ none ↔
            (allLowercase w = false
              ∧ ∃ x ∈ allItemsEntries rootEntries, x.itemName = w)) := by
  intro i w hw
  have hts : (ws.map fun w0 => Token.mk w0 none).get? i
      = some (Token.mk w none) := by
    rw [List.get?_map, hw]
    rfl
  have htrav : fmt_autolinks cfg rootEntries (ws.map fun w0 => Token.mk w0 none)
      = foldAnnotate cfg (allItemsEntries rootEntries)
          (ws.map fun w0 => Token.mk w0 none) :=
    (autolink_eq_fold (sizeOf rootEntries)).2 cfg rootEntries _ le_rfl
  obtain ⟨t, h1, h2, h3⟩ :=
    foldAnnotate_get? cfg (allItemsEntries rootEntries) _ i _ hts
  refine ⟨t, by rw [htrav]; exact h1, h2, ?_⟩
  rw [h3]
  constructor
  · rintro (h0 | ⟨x, hx, hl, hn, _⟩)
    · simp at h0
    · exact ⟨hl, x, hx, hn.symm⟩
  · rintro ⟨hl, x, hx, hn⟩
    exact Or.inr ⟨x, hx, hl, hn.symm, hurl x hx⟩

def c4Widget : EntityM :=
  .mk { kind := .classDecl, name := some "Widget", usr := "c:@S@Widget",
        isDefinition := true, isInSystemHeader := false, defFile := none,
        locationPath := none, accessibility := none, isVirtualBase := false,
        typeDeclUsr := none, fullName := ["Widget"] } []

def c4Entries : Entries := [("Widget", .classItem c4Widget)]

/-- Witness for C4 at a concrete one-class tree and two-word prose. -/
theorem c4_autolinks_witness :
    (∀ x ∈ allItemsEntries c4Entries,
      (x.entity.abs_docs_url cfgW).isSome = true) ∧
    ∃ t, (fmt_autolinks cfgW c4Entries
        (["see", "Widget"].map fun w0 => Token.mk w0 none)).get? 1 = some t
      ∧ t.word = "Widget"
      ∧ (t.link ≠ none ↔
          (allLowercase "Widget" = false
            ∧ ∃ x ∈ allItemsEntries c4Entries, x.itemName = "Widget")) :=
  have hall : allItemsEntries c4Entries = [CppItem.classItem c4Widget] := by
    show allItemsEntries [("Widget", CppItem.classItem c4Widget)] = _
    rw [allItemsEntries.eq_def]
    simp only
    rw [allItems.eq_def]
    simp only
    rw [allItemsEntries.eq_def]
    simp
  have hurl : ∀ x ∈ allItemsEntries c4Entries,
      (x.entity.abs_docs_url cfgW).isSome = true := by
    intro x hx
    rw [hall] at hx
    simp only [List.mem_singleton] at hx
    subst hx
    decide
  ⟨hurl, c4_autolinks cfgW c4Entries ["see", "Widget"] hurl 1 "Widget" rfl⟩

/-- The outcome of one render fan-in: the produced URLs or an error string.
`BuildResult` is `Result<Vec<JoinHandle<Result<UrlPath, String>>>, String>`
(src/builder/traits.rs line 390); awaiting is elsewhere, so a task's eventual
URL-or-error outcome is folded into the value here. -/
abbrev BuildOutcome := Except String (List (List String))

mutual

/-- The render orchestration of one tree node.  For a `Namespace` this is
`Namespace::build` (src/builder/namespace.rs lines 307-313): extend with
every child's result, propagating the first child error via `?`.  For the
other variants, `f` gives the node's task outcome (modelled from the spec
§4.6 — one render task per node yielding the node's final URL or an error
string; the class/struct/function `build` impls are outside src/). -/
def buildItem (f : EntityM → BuildOutcome) (it : CppItem) : BuildOutcome :=
  match it with
  | .namespaceItem _ _ es => buildEntries f es
  | x => f x.entity
termination_by sizeOf it
decreasing_by all_goals simp_wf

/-- The `for entry in self.entries.values()` loop of `Namespace::build`
(src/builder/namespace.rs lines 308-311): `handles.extend(entry.build(..)?)`. -/
def buildEntries (f : EntityM → BuildOutcome) (es : Entries) : BuildOutcome :=
  match es with
  | [] => .ok []
  | (_, v) :: rest =>
    match buildItem f v with
    | .ok hs =>
      match buildEntries f rest with
      | .ok t => .ok (hs ++ t)
      | .error e => .error e
    | .error e => .error e
termination_by sizeOf es
decreasing_by all_goals simp_wf <;> omega

end

mutual

/-- The task outcomes of the leaves of a subtree, in traversal order
(namespaces produce no task of their own in `Namespace::build`). -/
def leafOutcomes (f : EntityM → BuildOutcome) (it : CppItem) :
    List BuildOutcome :=
  match it with
  | .namespaceItem _ _ es => leafOutcomesEntries f es
  | x => [f x.entity]
termination_by sizeOf it
decreasing_by all_goals simp_wf

/-- The task outcomes of every leaf under an entry map, in order. -/
def leafOutcomesEntries (f : EntityM → BuildOutcome) (es : Entries) :
    List BuildOutcome :=
  match es with
  | [] => []
  | (_, v) :: rest => leafOutcomes f v ++ leafOutcomesEntries f rest
termination_by sizeOf es
decreasing_by all_goals simp_wf <;> omega

end

/-- Sequential fan-in of task outcomes: first error, else the concatenation
of all produced URL lists. -/
def combineResults : List BuildOutcome → BuildOutcome
  | [] => .ok []
  | r :: rest =>
    match r with
    | .ok hs =>
      match combineResults rest with
      | .ok t => .ok (hs ++ t)
      | .error e => .error e
    | .error e => .error e

theorem combineResults_append (rs1 rs2 : List BuildOutcome) :
    combineResults (rs1 ++ rs2)
      = match combineResults rs1 with
        | .ok t1 =>
          match combineResults rs2 with
          | .ok t2 => .ok (t1 ++ t2)
          | .error e => .error e
        | .error e => .error e := by
  induction rs1 with
  | nil =>
    simp only [List.nil_append, combineResults]
    cases combineResults rs2 with
    | ok t => simp
    | error e => simp
  | cons r rs1 ih =>
    cases r with
    | error e => simp [combineResults]
    | ok hs =>
      have hca : (Except.ok hs :: rs1) ++ rs2
          = (Except.ok hs : BuildOutcome) :: (rs1 ++ rs2) := rfl
      rw [hca]
      have step1 : combineResults ((Except.ok hs : BuildOutcome)
            :: (rs1 ++ rs2))
          = match combineResults (rs1 ++ rs2) with
            | Except.ok t => Except.ok (hs ++ t)
            | Except.error e => Except.error e := rfl
      have step2 : combineResults ((Except.ok hs : BuildOutcome) :: rs1)
          = match combineResults rs1 with
            | Except.ok t => Except.ok (hs ++ t)
            | Except.error e => Except.error e := rfl
      rw [step1, step2, ih]
      cases h1 : combineResults rs1 with
      | error e => rfl
      | ok t1 =>
        cases h2 : combineResults rs2 with
        | error e => rfl
        | ok t2 => simp

theorem build_eq_combine : ∀ n : Nat,
    (∀ (f : EntityM → BuildOutcome) (it : CppItem), sizeOf it ≤ n →
      buildItem f it = combineResults (leafOutcomes f it))
    ∧ (∀ (f : EntityM → BuildOutcome) (es : Entries), sizeOf es ≤ n →
      buildEntries f es = combineResults (leafOutcomesEntries f es)) := by
  intro n
  induction n using Nat.strong_induction_on with
  | _ n ih =>
    constructor
    · intro f it hsz
      cases it with
      | namespaceItem e r es =>
        have hes : sizeOf es < n := by
          have : sizeOf es < sizeOf (CppItem.namespaceItem e r es) := by
            simp only [CppItem.namespaceItem.sizeOf_spec]; omega
          omega
        rw [buildItem.eq_def, leafOutcomes.eq_def]
        simp only
        exact (ih (sizeOf es) hes).2 f es le_rfl
      | classItem e =>
        rw [buildItem.eq_def, leafOutcomes.eq_def]
        simp only [combineResults]
        cases f (CppItem.classItem e).entity with
        | ok hs => simp
        | error e0 => simp
      | structItem e =>
        rw [buildItem.eq_def, leafOutcomes.eq_def]
        simp only [combineResults]
        cases f (CppItem.structItem e).entity with
        | ok hs => simp
        | error e0 => simp
      | functionItem e =>
        rw [buildItem.eq_def, leafOutcomes.eq_def]
        simp only [combineResults]
        cases f (CppItem.functionItem e).entity with
        | ok hs => simp
        | error e0 => simp
    · intro f es hsz
      cases es with
      | nil =>
        rw [buildEntries.eq_def, leafOutcomesEntries.eq_def]
        simp [combineResults]
      | cons p rest =>
        obtain ⟨k, v⟩ := p
        have hv : sizeOf v < n := by
          have : sizeOf v < sizeOf ((k, v) :: rest) := by
            simp only [List.cons.sizeOf_spec, Prod.mk.sizeOf_spec]; omega
          omega
        have hr : sizeOf rest < n := by
          have : sizeOf rest < sizeOf ((k, v) :: rest) := by
            simp only [List.cons.sizeOf_spec, Prod.mk.sizeOf_spec]; omega
          omega
        rw [buildEntries.eq_def, leafOutcomesEntries.eq_def]
        simp only
        rw [combineResults_append,
          (ih (sizeOf v) hv).1 f v le_rfl,
          (ih (sizeOf rest) hr).2 f rest le_rfl]

theorem combineResults_error_iff (rs : List BuildOutcome) :
    (∃ e, combineResults rs = .error e) ↔ ∃ r ∈ rs, ∃ e, r = .error e := by
  induction rs with
  | nil => simp [combineResults]
  | cons r rest ih =>
    cases r with
    | error e =>
      simp [combineResults]
    | ok hs =>
      simp only [combineResults]
      cases hrest : combineResults rest with
      | ok t =>
        simp only [List.mem_cons]
        constructor
        · rintro ⟨e, he⟩
          simp at he
        · rintro ⟨r, hr | hr, e, he⟩
          · subst hr; simp at he
          · have := ih.mpr ⟨r, hr, e, he⟩
            rw [hrest] at this
            obtain ⟨e0, he0⟩ := this
            simp at he0
      | error e0 =>
        simp only [List.mem_cons]
        constructor
        · intro _
          obtain ⟨r, hr, e1, he1⟩ := ih.mp ⟨e0, hrest⟩
          exact ⟨r, Or.inr hr, e1, he1⟩
        · intro _
          exact ⟨e0, rfl⟩

theorem combineResults_first_error (rs : List BuildOutcome) (e : String)
    (h : combineResults rs = .error e) :
    ∃ i, rs.get? i = some (.error e)
      ∧ ∀ j, j < i → ∃ v, rs.get? j = some (.ok v) := by
  induction rs with
  | nil => simp [combineResults] at h
  | cons r rest ih =>
    cases r with
    | error e0 =>
      simp only [combineResults] at h
      injection h with h
      subst h
      exact ⟨0, rfl, fun j hj => absurd hj (Nat.not_lt_zero j)⟩
    | ok hs =>
      simp only [combineResults] at h
      cases hrest : combineResults rest with
      | ok t => rw [hrest] at h; simp at h
      | error e0 =>
        rw [hrest] at h
        injection h with h
        subst h
        obtain ⟨i, hi1, hi2⟩ := ih hrest
        refine ⟨i + 1, by simpa using hi1, ?_⟩
        intro j hj
        cases j with
        | zero => exact ⟨hs, rfl⟩
        | succ j0 =>
          have : j0 < i := by omega
          obtain ⟨v, hv⟩ := hi2 j0 this
          exact ⟨v, by simpa using hv⟩

theorem combineResults_all_ok (vss : List (List (List String))) :
    combineResults (vss.map Except.ok) = .ok vss.join := by
  induction vss with
  | nil => simp [combineResults]
  | cons v vss ih => simp [combineResults, ih]

/-- Claim C7.  A `Namespace` node's render result equals the sequential fan-in
of its leaf tasks' outcomes: it is an error iff at least one render task
fails, the first failing task's error becomes the node's own result, and when
every task succeeds the result is the concatenation of all produced URLs. -/
theorem c7_build_orchestration (f : EntityM → BuildOutcome) (it : CppItem) :
    buildItem f it = combineResults (leafOutcomes f it)
    ∧ ((∃ e, buildItem f it = .error e) ↔
        ∃ r ∈ leafOutcomes f it, ∃ e, r = .error e)
    ∧ (∀ e, buildItem f it = .error e →
        ∃ i, (leafOutcomes f it).get? i = some (.error e)
          ∧ ∀ j, j < i → ∃ v, (leafOutcomes f it).get? j = some (.ok v))
    ∧ (∀ vss : List (List (List String)),
        leafOutcomes f it = vss.map Except.ok →
        buildItem f it = .ok vss.join) := by
  have hb := (build_eq_combine (sizeOf it)).1 f it le_rfl
  refine ⟨hb, ?_, ?_, ?_⟩
  · rw [hb]
    exact combineResults_error_iff _
  · intro e he
    rw [hb] at he
    exact combineResults_first_error _ e he
  · intro vss hvss
    rw [hb, hvss]
    exact combineResults_all_ok vss

def c7Fun : EntityM → BuildOutcome := fun e =>
  if e.get_name = some "bad" then .error "render failed"
  else .ok [["classes", "Widget"]]

def c7Bad : EntityM :=
  .mk { kind := .functionDecl, name := some "bad", usr := "c:@F@bad",
        isDefinition := true, isInSystemHeader := false, defFile := none,
        locationPath := none, accessibility := none, isVirtualBase := false,
        typeDeclUsr := none, fullName := ["bad"] } []

def c7Tree : CppItem :=
  .namespaceItem (wEnt .namespaceDecl "root") true
    [("Widget", .classItem (wEnt .classDecl "Widget")),
     ("bad", .functionItem c7Bad)]

/-- Witness for C7 at a concrete tree with one failing task. -/
theorem c7_build_orchestration_witness :
    (∃ e, buildItem c7Fun c7Tree = .error e) ↔
      ∃ r ∈ leafOutcomes c7Fun c7Tree, ∃ e, r = .error e :=
  (c7_build_orchestration c7Fun c7Tree).2.1

end Flash
